import Mathlib

/-!
Verification development for the tree leaf-extraction engine of the
`command_base` repository (`tree/leaf_extract.js`).  The JavaScript source is
shallowly embedded: JSON-like runtime values become the inductive type `Jval`
(JS objects are ordered association lists of string keys, as JS preserves
insertion order of string keys; JS `undefined` is represented by `Option.none`
at the two places it can occur, namely the top-level input and a missing
object field), the internal tree-model nodes become `Nd`, and every function
of the source file is translated one-to-one.  Node identity (the source keeps
a JS `Set` of node references) is represented by the address of a node in the
tree: the list of child indices from the synthetic root, which is in bijection
with the node objects the source allocates.
-/

set_option maxHeartbeats 1600000

/-- A JSON-like JavaScript value: primitive (string / number / boolean /
null), array, or object with ordered string-keyed fields.  Numbers are
modelled as integers; none of the embedded code performs numeric arithmetic
on data values. -/
inductive Jval where
  | str : String → Jval
  | num : Int → Jval
  | bool : Bool → Jval
  | null : Jval
  | arr : List Jval → Jval
  | obj : List (String × Jval) → Jval

/-- Field access `o[k]` on a JS object: the first binding of the key, or
`none` when the key is absent (JS `undefined`). -/
def lookup_field (k : String) : List (String × Jval) → Option Jval
  | [] => none
  | e :: rest => if e.1 = k then some e.2 else lookup_field k rest

/-- The effect of `delete payload[k]` on a shallow copy of an object:
removing every binding of key `k` (JS objects hold each key once). -/
def erase_field (k : String) (fs : List (String × Jval)) : List (String × Jval) :=
  fs.filter (fun e => e.1 ≠ k)

/-- The effect of the JS assignment `o[k] = v`: replace the value in place
when the key is present, otherwise append the binding at the end (JS keeps
the insertion position of an existing key). -/
def set_field (k : String) (v : Jval) (fs : List (String × Jval)) : List (String × Jval) :=
  if (lookup_field k fs).isSome then
    fs.map (fun e => if e.1 = k then (e.1, v) else e)
  else fs ++ [(k, v)]

/-- JS truthiness of a `Jval` (`""`, `0`, `false` and `null` are falsy;
every array and object is truthy). -/
def truthy : Jval → Bool
  | .str s => s ≠ ""
  | .num n => n ≠ 0
  | .bool b => b
  | .null => false
  | .arr _ => true
  | .obj _ => true

/-- Is the value a JS "object" in the sense of `value && typeof value ===
"object"`, i.e. a (non-null) object or an array? -/
def is_objlike : Jval → Bool
  | .obj _ => true
  | .arr _ => true
  | _ => false

/-- Is the value an array (`Array.isArray`)? -/
def is_array_val : Jval → Bool
  | .arr _ => true
  | _ => false

mutual
/-- Size of a value (number of `Jval` constructors), used to bound the
breadth-first queue of `detect_children_key`. -/
def jsize : Jval → Nat
  | .arr l => 1 + jsize_list l
  | .obj fs => 1 + jsize_fields fs
  | _ => 1
termination_by structural v => v

/-- Total size of a list of values. -/
def jsize_list : List Jval → Nat
  | [] => 0
  | v :: rest => jsize v + jsize_list rest
termination_by structural l => l

/-- Total size of the values of an object's fields. -/
def jsize_fields : List (String × Jval) → Nat
  | [] => 0
  | e :: rest => jsize_entry e + jsize_fields rest
termination_by structural fs => fs

/-- Size of the value of one field. -/
def jsize_entry : String × Jval → Nat
  | (_, v) => jsize v
termination_by structural e => e
end

/- ---------------------------------------------------------------------
Options (source: `normalize_options`, `DEFAULT_*` constants).
A JS option that is absent (or not a non-blank string) is `none`.
--------------------------------------------------------------------- -/

def DEFAULT_CHILDREN_KEY : String := "children"

def DEFAULT_CHILDREN_CANDIDATES : List String := ["r_children", "children", "nodes", "items"]

def DEFAULT_VALUE_KEY : String := "value"

def DEFAULT_ROOT_LABEL : String := "__leaf_extract_root__"

/-- The raw options object a caller passes.  `none` models an option that is
absent (or, in the source, not a non-empty string / not a finite number). -/
structure RawOptions where
  children_key : Option String := none
  value_key : Option String := none
  root_label : Option String := none
  level : Option Int := none

/-- Options after `normalize_options`: every field resolved to a string. -/
structure NormalizedOptions where
  children_key : String
  value_key : String
  root_label : String

/-- Source `normalize_options`: fill each missing option with its default. -/
def normalize_options (options : RawOptions) : NormalizedOptions :=
  { children_key := options.children_key.getD DEFAULT_CHILDREN_KEY
    value_key := options.value_key.getD DEFAULT_VALUE_KEY
    root_label := options.root_label.getD DEFAULT_ROOT_LABEL }

/- ---------------------------------------------------------------------
Children-key auto-detection (source: `detect_children_key`).
The source runs a breadth-first search over a JS array used as a queue;
the embedding passes the queue explicitly and spends one unit of fuel per
dequeued element.  Each step strictly decreases the total size of the
queue, so `jsize_list queue + 1` fuel can never run out
(`detect_bfs_stable` below proves the fuel choice irrelevant).
--------------------------------------------------------------------- -/

/-- First candidate key whose value on this object is an array. -/
def candidate_hit (fields : List (String × Jval)) : List String → Option String
  | [] => none
  | k :: rest =>
    match lookup_field k fields with
    | some (.arr _) => some k
    | _ => candidate_hit fields rest

/-- Values of an object enqueued by the detection loop: for an array-valued
field, its object-like items; for an object-valued field, the object itself;
primitives and `null` are skipped. -/
def enqueue_values (fields : List (String × Jval)) : List Jval :=
  fields.flatMap (fun e =>
    match e.2 with
    | .arr items => items.filter is_objlike
    | .obj fs => [.obj fs]
    | _ => [])

/-- The breadth-first loop of `detect_children_key` with explicit queue and
fuel.  Dequeued primitives and `null` are skipped, a dequeued array is
spread into the queue, and a dequeued object first answers the candidate
probe and otherwise enqueues its object-like content. -/
def detect_bfs : Nat → List Jval → Option String
  | _, [] => none
  | 0, _ :: _ => none
  | fuel + 1, v :: rest =>
    match v with
    | .obj fields =>
      match candidate_hit fields DEFAULT_CHILDREN_CANDIDATES with
      | some k => some k
      | none => detect_bfs fuel (rest ++ enqueue_values fields)
    | .arr items => detect_bfs fuel (rest ++ items)
    | _ => detect_bfs fuel rest

/-- Initial queue of the detection: the elements of a top-level array, or the
single top-level value; `undefined` contributes nothing. -/
def initial_queue : Option Jval → List Jval
  | none => []
  | some (.arr l) => l
  | some v => [v]

/-- Source `detect_children_key`: breadth-first search for the first
candidate key holding an array value; `none` when no key is found. -/
def detect_children_key (input_data : Option Jval) : Option String :=
  detect_bfs (jsize_list (initial_queue input_data) + 1) (initial_queue input_data)

/-- Source `resolve_options_with_data`: an explicitly supplied children key
wins; otherwise the detected key; otherwise the default `"children"`. -/
def resolve_options_with_data (input_data : Option Jval) (options : RawOptions) :
    NormalizedOptions :=
  let normalized_options := normalize_options options
  if options.children_key.isSome then normalized_options
  else
    match detect_children_key input_data with
    | some detected_key => { normalized_options with children_key := detected_key }
    | none => normalized_options

/- ---------------------------------------------------------------------
Internal tree-model nodes (source: `normalize_node`, `normalize_forest`,
`build_tree_model_from_data`).  A node carries the source node objects'
fields: `payload` (shallow copy of an input object minus the children-key
field, `{}` for a primitive), the ordered `children`, and the `meta` flags
`is_primitive` / `raw_value` (`raw_value` present exactly on primitive
nodes, hence an `Option`).
--------------------------------------------------------------------- -/

/-- An internal node: payload fields, children, `meta.is_primitive`, and
`meta.raw_value` (`none` on structured nodes, where the source leaves the
field undefined). -/
inductive Nd where
  | mk : List (String × Jval) → List Nd → Bool → Option Jval → Nd

/-- The `payload` field of a node. -/
def nd_payload : Nd → List (String × Jval)
  | .mk p _ _ _ => p

/-- The `children` field of a node. -/
def nd_children : Nd → List Nd
  | .mk _ cs _ _ => cs

/-- The `meta.is_primitive` flag of a node. -/
def nd_is_primitive : Nd → Bool
  | .mk _ _ ip _ => ip

/-- The `meta.raw_value` field of a node. -/
def nd_raw_value : Nd → Option Jval
  | .mk _ _ _ rv => rv

mutual
/-- Source `normalize_node`: a non-array, non-null object becomes a
structured node (payload = own fields minus the children-key field,
children = `normalize_forest` of the children-key field's value); every
other value (string, number, boolean, null, and any nested array) becomes
a primitive node carrying the raw value. -/
def normalize_node (ck : String) : Jval → Nd
  | .obj fields => .mk (erase_field ck fields) (normalize_fields ck fields) false none
  | v => .mk [] [] true (some v)
termination_by structural v => v

/-- Children of a structured node: `normalize_forest` applied to the value
of the first binding of the children key (structural-recursion form;
`normalize_fields_eq_lookup` below identifies it with a lookup). -/
def normalize_fields (ck : String) : List (String × Jval) → List Nd
  | [] => []
  | e :: rest => if e.1 = ck then normalize_entry ck e else normalize_fields ck rest
termination_by structural fs => fs

/-- Normalization of one children-key binding. -/
def normalize_entry (ck : String) : String × Jval → List Nd
  | (_, v) => normalize_children ck v
termination_by structural e => e

/-- Source `normalize_forest` on a present (non-`undefined`) value: an array
becomes the list of its normalized elements; any other value becomes a
one-element forest holding its normalized node. -/
def normalize_children (ck : String) : Jval → List Nd
  | .arr l => normalize_list ck l
  | .obj fields => [.mk (erase_field ck fields) (normalize_fields ck fields) false none]
  | v => [.mk [] [] true (some v)]
termination_by structural v => v

/-- Elementwise normalization of an array of raw nodes. -/
def normalize_list (ck : String) : List Jval → List Nd
  | [] => []
  | v :: rest => normalize_node ck v :: normalize_list ck rest
termination_by structural l => l
end

/-- Source `normalize_forest`: `undefined` yields an empty forest, an array
its normalized elements, and any other value a one-node forest. -/
def normalize_forest (ck : String) : Option Jval → List Nd
  | none => []
  | some v => normalize_children ck v

/-- Payload of the synthetic root: `{ [value_key]: root_label,
__leaf_extract_root: true }` written with JS object-literal semantics (the
second binding overwrites the first when `value_key` collides with the
reserved flag name). -/
def root_payload (no : NormalizedOptions) : List (String × Jval) :=
  set_field "__leaf_extract_root" (.bool true) [(no.value_key, .str no.root_label)]

/-- The root node built by `build_tree_model_from_data`: the sentinel payload
with the normalized forest as children (`meta` = `{is_root: true}`, so
`is_primitive` is falsy and `raw_value` absent). -/
def build_root (no : NormalizedOptions) (input_data : Option Jval) : Nd :=
  .mk (root_payload no) (normalize_forest no.children_key input_data) false none

/-- Whether the top-level input was an array (recorded as `input_is_array`
by `build_tree_model_from_data`). -/
def input_is_array : Option Jval → Bool
  | some (.arr _) => true
  | _ => false

/-- Truthiness of `node.model.payload.__leaf_extract_root`: the test that
excludes the sentinel root from leaves, flatten output and ancestor paths. -/
def flagged (n : Nd) : Bool :=
  match lookup_field "__leaf_extract_root" (nd_payload n) with
  | some v => truthy v
  | none => false

/-- Source `get_node_payload`: the raw value of a primitive node, otherwise
a shallow copy of the payload.  The `getD .null` default is never exercised
on nodes produced by normalization, where `is_primitive` implies a present
`raw_value`. -/
def get_node_payload (n : Nd) : Jval :=
  if nd_is_primitive n then (nd_raw_value n).getD .null else .obj (nd_payload n)

/- ---------------------------------------------------------------------
Addressed traversal.  The source walks `tree-model` node wrappers and
distinguishes nodes by reference identity; the embedding addresses a node
by its list of child indices below the sentinel root, which identifies a
node object uniquely.
--------------------------------------------------------------------- -/

/-- An address: the child indices leading from the sentinel root to a node. -/
abbrev Addr := List Nat

mutual
/-- Post-order list of all (address, node) pairs of a subtree, the subtree's
own root last — the traversal order of `root_node.all({strategy: "post"})`. -/
def post_list (addr : Addr) : Nd → List (Addr × Nd)
  | .mk p cs ip rv => post_children addr 0 cs ++ [(addr, .mk p cs ip rv)]
termination_by structural n => n

/-- Post-order lists of the children starting at sibling index `i`. -/
def post_children (addr : Addr) (i : Nat) : List Nd → List (Addr × Nd)
  | [] => []
  | c :: rest => post_list (addr ++ [i]) c ++ post_children addr (i + 1) rest
termination_by structural l => l
end

mutual
/-- The node reached from `n` by following an address. -/
def node_at : Nd → Addr → Option Nd
  | n, [] => some n
  | .mk _ cs _ _, i :: rest => node_at_list cs i rest
termination_by structural n => n

/-- Child lookup by sibling index, then descent. -/
def node_at_list : List Nd → Nat → Addr → Option Nd
  | [], _, _ => none
  | c :: _, 0, rest => node_at c rest
  | _ :: cs, i + 1, rest => node_at_list cs i rest
termination_by structural l => l
end

/-- Source `get_leaf_nodes`: every node of the tree, in post order, that is
not sentinel-flagged and has no children.  The embedding returns each leaf
together with its address (the source returns node references). -/
def get_leaf_nodes (root_node : Nd) : List (Addr × Nd) :=
  (post_list [] root_node).filter (fun an => !flagged an.2 && (nd_children an.2).isEmpty)

/-- The prefixes of an address, shortest first — the addresses of the nodes
on `getPath()` from the root to the node, both inclusive. -/
def addr_inits (a : Addr) : List Addr :=
  (List.range (a.length + 1)).map (fun k => a.take k)

/-- The `getPath()` of the node at address `a`, with the sentinel-flagged
entries removed — the filtered `path_nodes` of `collect_selected_nodes`. -/
def leaf_path_filtered (root_node : Nd) (a : Addr) : List (Addr × Nd) :=
  ((addr_inits a).filterMap (fun p => (node_at root_node p).map (fun n => (p, n)))).filter
    (fun pn => !flagged pn.2)

/-- JS `array.slice(-level)`: the last `level` elements (the whole list when
it is shorter). -/
def tail_slice (l : List (Addr × Nd)) (level : Nat) : List (Addr × Nd) :=
  l.drop (l.length - level)

/-- Source `collect_selected_nodes`: for every leaf, the last `level` entries
of its filtered ancestor path, united into the selected set.  The JS `Set`
of node references is represented as the list of their addresses; membership
ignores duplicates and `selected_count` counts it deduplicated. -/
def collect_selected_nodes (root_node : Nd) (leaf_addrs : List Addr) (level : Nat) :
    List Addr :=
  leaf_addrs.flatMap (fun a => (tail_slice (leaf_path_filtered root_node a) level).map (·.1))

/- ---------------------------------------------------------------------
Rebuilder (source: `build_output_node`, `collect_output_nodes`).
--------------------------------------------------------------------- -/

/-- Source `build_output_node`: a primitive node with no child outputs
re-emits its bare raw value; a primitive node with child outputs is promoted
to `{ [value_key]: raw, [children_key]: outputs }`; a structured node
re-emits its payload, with the child outputs under the children key when
there are any. -/
def build_output_node (no : NormalizedOptions) (n : Nd) (child_outputs : List Jval) : Jval :=
  if nd_is_primitive n then
    match child_outputs with
    | [] => (nd_raw_value n).getD .null
    | outs => .obj (set_field no.children_key (.arr outs)
        [(no.value_key, (nd_raw_value n).getD .null)])
  else
    match child_outputs with
    | [] => .obj (nd_payload n)
    | outs => .obj (set_field no.children_key (.arr outs) (nd_payload n))

mutual
/-- Source `collect_output_nodes`: collect the children's outputs in order;
an unselected node passes them through transparently, a selected node wraps
them into a single output value. -/
def collect_output_nodes (no : NormalizedOptions) (sel : List Addr) (addr : Addr) :
    Nd → List Jval
  | .mk p cs ip rv =>
    let collected_children := collect_output_list no sel addr 0 cs
    if addr ∈ sel then [build_output_node no (.mk p cs ip rv) collected_children]
    else collected_children
termination_by structural n => n

/-- Concatenated outputs of a child list starting at sibling index `i`. -/
def collect_output_list (no : NormalizedOptions) (sel : List Addr) (addr : Addr) (i : Nat) :
    List Nd → List Jval
  | [] => []
  | c :: rest =>
    collect_output_nodes no sel (addr ++ [i]) c ++ collect_output_list no sel addr (i + 1) rest
termination_by structural l => l
end

/- ---------------------------------------------------------------------
Public entry points (source: `extract_leaf_levels`, `flatten_tree`,
`get_leaf_paths`, `map_tree`, `filter_tree`).
--------------------------------------------------------------------- -/

/-- Coercion of `options.level`: a missing or non-finite or below-1 level
becomes 1 (the source additionally floors, which is the identity here since
levels are integral). -/
def coerce_level : Option Int → Nat
  | none => 1
  | some n => if 1 ≤ n then n.toNat else 1

/-- Shape decision shared by the entry points: an array input yields the
whole output forest as an array; a non-array input yields the forest's first
element, or `null` when the forest is empty. -/
def forest_to_output (is_arr : Bool) (output_forest : List Jval) : Jval :=
  if is_arr then .arr output_forest
  else
    match output_forest with
    | [] => .null
    | x :: _ => x

/-- The `meta` record of `extract_leaf_levels`. -/
structure ExtractMeta where
  level : Nat
  leaf_count : Nat
  selected_count : Nat

/-- The result of `extract_leaf_levels`. -/
structure ExtractResult where
  output_data : Jval
  meta : ExtractMeta

/-- The `output_forest` accumulated by `extract_leaf_levels` before the
shape decision: the concatenated outputs of the sentinel root's children. -/
def extract_output_forest (input_data : Option Jval) (options : RawOptions) : List Jval :=
  let level := coerce_level options.level
  let no := resolve_options_with_data input_data options
  let root_node := build_root no input_data
  let leaf_nodes := get_leaf_nodes root_node
  let selected_nodes := collect_selected_nodes root_node (leaf_nodes.map (·.1)) level
  collect_output_list no selected_nodes [] 0 (normalize_forest no.children_key input_data)

/-- Source `extract_leaf_levels`: normalize, select the leaf-level node set,
rebuild, and report the diagnostic counts (`selected_count` is the size of
the selected set, counted without duplicates as a JS `Set` does). -/
def extract_leaf_levels (input_data : Option Jval) (options : RawOptions) : ExtractResult :=
  let level := coerce_level options.level
  let no := resolve_options_with_data input_data options
  let root_node := build_root no input_data
  let leaf_nodes := get_leaf_nodes root_node
  let selected_nodes := collect_selected_nodes root_node (leaf_nodes.map (·.1)) level
  { output_data := forest_to_output (input_is_array input_data)
      (extract_output_forest input_data options)
    meta :=
      { level := level
        leaf_count := leaf_nodes.length
        selected_count := selected_nodes.dedup.length } }

mutual
/-- Pre-order list of all (address, node) pairs of a subtree, the subtree's
own root first — the traversal order of `root_node.all({strategy: "pre"})`. -/
def pre_list (addr : Addr) : Nd → List (Addr × Nd)
  | .mk p cs ip rv => (addr, .mk p cs ip rv) :: pre_children addr 0 cs
termination_by structural n => n

/-- Pre-order lists of the children starting at sibling index `i`. -/
def pre_children (addr : Addr) (i : Nat) : List Nd → List (Addr × Nd)
  | [] => []
  | c :: rest => pre_list (addr ++ [i]) c ++ pre_children addr (i + 1) rest
termination_by structural l => l
end

/-- Source `flatten_tree`: the payload / raw value of every non-sentinel
node in pre-order. -/
def flatten_tree (input_data : Option Jval) (options : RawOptions) : List Jval :=
  let no := resolve_options_with_data input_data options
  let root_node := build_root no input_data
  ((pre_list [] root_node).filter (fun an => !flagged an.2)).map
    (fun an => get_node_payload an.2)

/-- Source `get_leaf_paths`: for every leaf, the payload / raw values along
its sentinel-free ancestor path. -/
def get_leaf_paths (input_data : Option Jval) (options : RawOptions) : List (List Jval) :=
  let no := resolve_options_with_data input_data options
  let root_node := build_root no input_data
  (get_leaf_nodes root_node).map (fun an =>
    (leaf_path_filtered root_node an.1).map (fun pn => get_node_payload pn.2))

mutual
/-- The inner `map_nodes` of `map_tree`: each node is replaced by the mapper
image of its payload / raw value; a non-object image with mapped children is
promoted to a wrapped object, an object image receives the mapped children
under the children key. -/
def map_nodes (no : NormalizedOptions) (f : Jval → Jval) : List Nd → List Jval
  | [] => []
  | n :: rest => map_one_node no f n :: map_nodes no f rest
termination_by structural l => l

/-- Mapping of a single node (one pass of the `map_nodes` loop body). -/
def map_one_node (no : NormalizedOptions) (f : Jval → Jval) : Nd → Jval
  | .mk p cs ip rv =>
    let mapped_children := map_nodes no f cs
    let mapped_payload := f (get_node_payload (.mk p cs ip rv))
    match mapped_payload, mapped_children with
    | .obj fields, [] => .obj fields
    | .obj fields, ks => .obj (set_field no.children_key (.arr ks) fields)
    | m, [] => m
    | m, ks => .obj (set_field no.children_key (.arr ks) [(no.value_key, m)])
termination_by structural n => n
end

/-- Source `map_tree`: reject a non-callable mapper before any traversal,
otherwise rebuild every node bottom-up through the mapper.  A non-callable
`mapper_fn` is `none`; the thrown JS error becomes `Except.error`. -/
def map_tree (input_data : Option Jval) (options : RawOptions)
    (mapper_fn : Option (Jval → Jval)) : Except String Jval :=
  match mapper_fn with
  | none => .error "map_tree requires a mapper function"
  | some f =>
    let no := resolve_options_with_data input_data options
    let root_node := build_root no input_data
    .ok (forest_to_output (input_is_array input_data) (map_nodes no f (nd_children root_node)))

mutual
/-- The inner `filter_nodes` of `filter_tree`: a node failing the predicate
with no kept descendants disappears; a failing node with kept descendants is
spliced out (its kept descendants bubble up); a matching node is rebuilt
with its kept descendants as children. -/
def filter_nodes (no : NormalizedOptions) (p : Jval → Bool) : List Nd → List Jval
  | [] => []
  | n :: rest => filter_one_node no p n ++ filter_nodes no p rest
termination_by structural l => l

/-- Filtering of a single node (one pass of the `filter_nodes` loop body,
with the `continue` for a failing childless node written as the empty
splice). -/
def filter_one_node (no : NormalizedOptions) (p : Jval → Bool) : Nd → List Jval
  | .mk pl cs ip rv =>
    let filtered_children := filter_nodes no p cs
    let is_match := p (get_node_payload (.mk pl cs ip rv))
    if !is_match && filtered_children.isEmpty then []
    else if !is_match then filtered_children
    else [build_output_node no (.mk pl cs ip rv) filtered_children]
termination_by structural n => n
end

/-- Source `filter_tree`: reject a non-callable predicate before any
traversal, otherwise prune through the predicate.  A non-callable
`predicate_fn` is `none`; the thrown JS error becomes `Except.error`. -/
def filter_tree (input_data : Option Jval) (options : RawOptions)
    (predicate_fn : Option (Jval → Bool)) : Except String Jval :=
  match predicate_fn with
  | none => .error "filter_tree requires a predicate function"
  | some p =>
    let no := resolve_options_with_data input_data options
    let root_node := build_root no input_data
    .ok (forest_to_output (input_is_array input_data) (filter_nodes no p (nd_children root_node)))

/- ---------------------------------------------------------------------
Derived notions used by the properties: tree height, invariants of
normalized trees, the full re-emission of a tree, a promotion-free variant
of the rebuilder, and the canonical input class that round-trips.
--------------------------------------------------------------------- -/

mutual
/-- Height of a node: 1 plus the height of its tallest child subtree.  The
height of the sentinel root minus one is the maximum leaf depth of the
forest. -/
def nd_height : Nd → Nat
  | .mk _ cs _ _ => 1 + nd_height_list cs
termination_by structural n => n

/-- Height of a forest: the maximum height of its trees (0 when empty). -/
def nd_height_list : List Nd → Nat
  | [] => 0
  | c :: rest => max (nd_height c) (nd_height_list rest)
termination_by structural l => l
end

mutual
/-- Does no node of this subtree carry a truthy sentinel flag? -/
def all_unflagged : Nd → Bool
  | .mk p cs ip rv => !flagged (.mk p cs ip rv) && all_unflagged_list cs
termination_by structural n => n

/-- `all_unflagged` over a forest. -/
def all_unflagged_list : List Nd → Bool
  | [] => true
  | c :: rest => all_unflagged c && all_unflagged_list rest
termination_by structural l => l
end

mutual
/-- Does every primitive node of this subtree have an empty children list? -/
def prim_childless : Nd → Bool
  | .mk _ cs ip _ => (!ip || cs.isEmpty) && prim_childless_list cs
termination_by structural n => n

/-- `prim_childless` over a forest. -/
def prim_childless_list : List Nd → Bool
  | [] => true
  | c :: rest => prim_childless c && prim_childless_list rest
termination_by structural l => l
end

mutual
/-- Full re-emission of a node: `build_output_node` applied to the node and
the re-emissions of all of its children — the output of the rebuilder when
every node is selected. -/
def rebuild_node (no : NormalizedOptions) : Nd → Jval
  | .mk p cs ip rv => build_output_node no (.mk p cs ip rv) (rebuild_list no cs)
termination_by structural n => n

/-- `rebuild_node` over a forest. -/
def rebuild_list (no : NormalizedOptions) : List Nd → List Jval
  | [] => []
  | n :: rest => rebuild_node no n :: rebuild_list no rest
termination_by structural l => l
end

/-- Is the reserved sentinel flag absent (or falsy) on these fields? -/
def flag_absent (fields : List (String × Jval)) : Bool :=
  match lookup_field "__leaf_extract_root" fields with
  | some v => !truthy v
  | none => true

mutual
/-- A tree value in canonical (normalized) form with respect to a children
key `ck`: every object either lacks `ck` entirely, or carries it as its last
field with a non-empty array of canonical trees as value; no object carries
a truthy reserved sentinel flag.  Exactly the values on which the rebuilder
inverts the normalizer. -/
def canonical_tree (ck : String) : Jval → Bool
  | .obj fields => flag_absent fields && canonical_fields ck fields
  | _ => true
termination_by structural v => v

/-- Field-list discipline of `canonical_tree`: the children key may occur
only as the very last field, holding a canonical non-empty array. -/
def canonical_fields (ck : String) : List (String × Jval) → Bool
  | [] => true
  | e :: rest =>
    if rest.isEmpty then (if e.1 = ck then canonical_ck_value ck e.2 else true)
    else (e.1 != ck && canonical_fields ck rest)
termination_by structural fs => fs

/-- The children-key field's value in a canonical object: a non-empty array
of canonical trees. -/
def canonical_ck_value (ck : String) : Jval → Bool
  | .arr [] => false
  | .arr (x :: xs) => canonical_tree ck x && canonical_list ck xs
  | _ => false
termination_by structural v => v

/-- `canonical_tree` over a list of trees. -/
def canonical_list (ck : String) : List Jval → Bool
  | [] => true
  | v :: rest => canonical_tree ck v && canonical_list ck rest
termination_by structural l => l
end

/-- A canonical top-level input: a forest of canonical trees, or one
canonical tree. -/
def canonical_input (ck : String) : Jval → Bool
  | .arr l => canonical_list ck l
  | v => canonical_tree ck v

/-- Variant of `build_output_node` with the primitive-promotion branch cut:
a primitive node always re-emits its bare raw value, child outputs
discarded.  Used to state that the promotion branch is unreachable. -/
def build_output_node_unpromoted (no : NormalizedOptions) (n : Nd)
    (child_outputs : List Jval) : Jval :=
  if nd_is_primitive n then (nd_raw_value n).getD .null
  else
    match child_outputs with
    | [] => .obj (nd_payload n)
    | outs => .obj (set_field no.children_key (.arr outs) (nd_payload n))

mutual
/-- `collect_output_nodes` with the promotion-free builder. -/
def collect_output_nodes_unpromoted (no : NormalizedOptions) (sel : List Addr) (addr : Addr) :
    Nd → List Jval
  | .mk p cs ip rv =>
    let collected_children := collect_output_list_unpromoted no sel addr 0 cs
    if addr ∈ sel then [build_output_node_unpromoted no (.mk p cs ip rv) collected_children]
    else collected_children
termination_by structural n => n

/-- `collect_output_list` with the promotion-free builder. -/
def collect_output_list_unpromoted (no : NormalizedOptions) (sel : List Addr) (addr : Addr)
    (i : Nat) : List Nd → List Jval
  | [] => []
  | c :: rest =>
    collect_output_nodes_unpromoted no sel (addr ++ [i]) c ++
      collect_output_list_unpromoted no sel addr (i + 1) rest
termination_by structural l => l
end

/-- `extract_leaf_levels` recomputed with the promotion-free builder. -/
def extract_leaf_levels_unpromoted (input_data : Option Jval) (options : RawOptions) :
    ExtractResult :=
  let level := coerce_level options.level
  let no := resolve_options_with_data input_data options
  let root_node := build_root no input_data
  let leaf_nodes := get_leaf_nodes root_node
  let selected_nodes := collect_selected_nodes root_node (leaf_nodes.map (·.1)) level
  { output_data := forest_to_output (input_is_array input_data)
      (collect_output_list_unpromoted no selected_nodes [] 0
        (normalize_forest no.children_key input_data))
    meta :=
      { level := level
        leaf_count := leaf_nodes.length
        selected_count := selected_nodes.dedup.length } }

mutual
/-- `filter_nodes` with the promotion-free builder. -/
def filter_nodes_unpromoted (no : NormalizedOptions) (p : Jval → Bool) : List Nd → List Jval
  | [] => []
  | n :: rest => filter_one_node_unpromoted no p n ++ filter_nodes_unpromoted no p rest
termination_by structural l => l

/-- `filter_one_node` with the promotion-free builder. -/
def filter_one_node_unpromoted (no : NormalizedOptions) (p : Jval → Bool) : Nd → List Jval
  | .mk pl cs ip rv =>
    let filtered_children := filter_nodes_unpromoted no p cs
    let is_match := p (get_node_payload (.mk pl cs ip rv))
    if !is_match && filtered_children.isEmpty then []
    else if !is_match then filtered_children
    else [build_output_node_unpromoted no (.mk pl cs ip rv) filtered_children]
termination_by structural n => n
end

/-- `filter_tree` with the promotion-free builder. -/
def filter_tree_unpromoted (input_data : Option Jval) (options : RawOptions)
    (predicate_fn : Option (Jval → Bool)) : Except String Jval :=
  match predicate_fn with
  | none => .error "filter_tree requires a predicate function"
  | some p =>
    let no := resolve_options_with_data input_data options
    let root_node := build_root no input_data
    .ok (forest_to_output (input_is_array input_data)
      (filter_nodes_unpromoted no p (nd_children root_node)))

/-- The set of addresses of the nodes satisfying a predicate on their
payload / raw value — the "dynamically selected" set that `filter_tree`
implicitly works with. -/
def predicate_selected (root_node : Nd) (p : Jval → Bool) : List Addr :=
  ((post_list [] root_node).filter (fun an => p (get_node_payload an.2))).map (·.1)

/-- The concrete input of the spec's scenario 6: one root `"1"` with one
child `"1.1"` carrying two leaf grandchildren. -/
def sample_nested_input : Jval :=
  .arr [.obj [("value", .str "1"), ("children", .arr [
    .obj [("value", .str "1.1"), ("children", .arr [
      .obj [("value", .str "1.1.1")], .obj [("value", .str "1.1.2")]])]])]]

/-- A sample input whose children live under `r_children`. -/
def sample_r_children_input : Jval :=
  .arr [.obj [("value", .str "r"), ("r_children", .arr [.obj [("value", .str "r.1")]])]]

/-- A node is a leaf: not sentinel-flagged and childless (the predicate of
`get_leaf_nodes`). -/
def leaf_pred (n : Nd) : Bool := !flagged n && (nd_children n).isEmpty

mutual
/-- Reference rebuilder driven by a per-node boolean predicate instead of an
address set: a node satisfying `P` wraps its collected child outputs, any
other node is transparent.  `collect_output_nodes` agrees with it whenever
the address set denotes exactly the nodes satisfying `P`. -/
def collect_by_pred (no : NormalizedOptions) (P : Nd → Bool) : Nd → List Jval
  | .mk p cs ip rv =>
    let collected := collect_by_pred_list no P cs
    if P (.mk p cs ip rv) then [build_output_node no (.mk p cs ip rv) collected]
    else collected
termination_by structural n => n

/-- `collect_by_pred` over a forest, outputs concatenated. -/
def collect_by_pred_list (no : NormalizedOptions) (P : Nd → Bool) : List Nd → List Jval
  | [] => []
  | c :: rest => collect_by_pred no P c ++ collect_by_pred_list no P rest
termination_by structural l => l
end

/- ---------------------------------------------------------------------
Induction principles for the nested inductive types.
--------------------------------------------------------------------- -/

mutual
/-- Strong induction over `Nd`: prove a property of every node from the
property of all of its children. -/
theorem nd_strong_induction {P : Nd → Prop}
    (h : ∀ p cs ip rv, (∀ c ∈ cs, P c) → P (.mk p cs ip rv)) : ∀ n, P n
  | .mk p cs ip rv => h p cs ip rv (nd_list_strong_induction h cs)
termination_by structural n => n

/-- Strong induction over `Nd`, list form. -/
theorem nd_list_strong_induction {P : Nd → Prop}
    (h : ∀ p cs ip rv, (∀ c ∈ cs, P c) → P (.mk p cs ip rv)) :
    ∀ l : List Nd, ∀ c ∈ l, P c
  | [], c, hc => absurd hc (List.not_mem_nil c)
  | n :: rest, c, hc => by
    rcases List.mem_cons.mp hc with h1 | h2
    · exact h1 ▸ nd_strong_induction h n
    · exact nd_list_strong_induction h rest c h2
termination_by structural l => l
end

mutual
/-- Strong induction over `Jval`: prove a property of every value from the
property of all array elements and all object field values. -/
theorem jval_strong_induction {P : Jval → Prop}
    (hstr : ∀ s, P (.str s)) (hnum : ∀ n, P (.num n)) (hbool : ∀ b, P (.bool b))
    (hnull : P .null)
    (harr : ∀ l, (∀ v ∈ l, P v) → P (.arr l))
    (hobj : ∀ fs, (∀ e ∈ fs, P e.2) → P (.obj fs)) : ∀ v, P v
  | .str s => hstr s
  | .num n => hnum n
  | .bool b => hbool b
  | .null => hnull
  | .arr l => harr l (jval_list_strong_induction hstr hnum hbool hnull harr hobj l)
  | .obj fs => hobj fs (jval_fields_strong_induction hstr hnum hbool hnull harr hobj fs)
termination_by structural v => v

/-- Strong induction over `Jval`, array-elements form. -/
theorem jval_list_strong_induction {P : Jval → Prop}
    (hstr : ∀ s, P (.str s)) (hnum : ∀ n, P (.num n)) (hbool : ∀ b, P (.bool b))
    (hnull : P .null)
    (harr : ∀ l, (∀ v ∈ l, P v) → P (.arr l))
    (hobj : ∀ fs, (∀ e ∈ fs, P e.2) → P (.obj fs)) :
    ∀ l : List Jval, ∀ v ∈ l, P v
  | [], v, hv => absurd hv (List.not_mem_nil v)
  | x :: rest, v, hv => by
    rcases List.mem_cons.mp hv with h1 | h2
    · exact h1 ▸ jval_strong_induction hstr hnum hbool hnull harr hobj x
    · exact jval_list_strong_induction hstr hnum hbool hnull harr hobj rest v h2
termination_by structural l => l

/-- Strong induction over `Jval`, object-fields form. -/
theorem jval_fields_strong_induction {P : Jval → Prop}
    (hstr : ∀ s, P (.str s)) (hnum : ∀ n, P (.num n)) (hbool : ∀ b, P (.bool b))
    (hnull : P .null)
    (harr : ∀ l, (∀ v ∈ l, P v) → P (.arr l))
    (hobj : ∀ fs, (∀ e ∈ fs, P e.2) → P (.obj fs)) :
    ∀ fs : List (String × Jval), ∀ e ∈ fs, P e.2
  | [], e, he => absurd he (List.not_mem_nil e)
  | x :: rest, e, he => by
    rcases List.mem_cons.mp he with h1 | h2
    · exact h1 ▸ jval_entry_strong_induction hstr hnum hbool hnull harr hobj x
    · exact jval_fields_strong_induction hstr hnum hbool hnull harr hobj rest e h2
termination_by structural fs => fs

/-- Strong induction over `Jval`, single-field form. -/
theorem jval_entry_strong_induction {P : Jval → Prop}
    (hstr : ∀ s, P (.str s)) (hnum : ∀ n, P (.num n)) (hbool : ∀ b, P (.bool b))
    (hnull : P .null)
    (harr : ∀ l, (∀ v ∈ l, P v) → P (.arr l))
    (hobj : ∀ fs, (∀ e ∈ fs, P e.2) → P (.obj fs)) :
    ∀ e : String × Jval, P e.2
  | (_, v) => jval_strong_induction hstr hnum hbool hnull harr hobj v
termination_by structural e => e
end

/- ---------------------------------------------------------------------
Basic lemmas on fields and normalization.
--------------------------------------------------------------------- -/

theorem lookup_field_eq_none_of_ne (k : String) (fs : List (String × Jval))
    (h : ∀ e ∈ fs, e.1 ≠ k) : lookup_field k fs = none := by
  induction fs with
  | nil => rfl
  | cons e rest ih =>
    simp only [lookup_field]
    rw [if_neg (h e (List.mem_cons_self e rest))]
    exact ih fun e' he' => h e' (List.mem_cons_of_mem e he')

theorem lookup_field_append_of_none (k : String) (l1 l2 : List (String × Jval))
    (h : lookup_field k l1 = none) : lookup_field k (l1 ++ l2) = lookup_field k l2 := by
  induction l1 with
  | nil => rfl
  | cons e rest ih =>
    simp only [lookup_field] at h ⊢
    by_cases he : e.1 = k
    · rw [if_pos he] at h; exact absurd h (by simp)
    · rw [if_neg he] at h ⊢
      exact ih h

theorem erase_field_of_absent (k : String) (fs : List (String × Jval))
    (h : ∀ e ∈ fs, e.1 ≠ k) : erase_field k fs = fs := by
  unfold erase_field
  exact List.filter_eq_self.mpr fun e he => by simpa using h e he

theorem erase_field_append_last (ck : String) (base : List (String × Jval)) (v : Jval)
    (h : ∀ e ∈ base, e.1 ≠ ck) : erase_field ck (base ++ [(ck, v)]) = base := by
  unfold erase_field
  rw [List.filter_append]
  have h1 : base.filter (fun e => e.1 ≠ ck) = base :=
    List.filter_eq_self.mpr fun e he => by simpa using h e he
  simp only [h1]
  simp only [List.filter_cons, List.filter_nil]
  norm_num

theorem set_field_of_absent (k : String) (v : Jval) (fs : List (String × Jval))
    (h : lookup_field k fs = none) : set_field k v fs = fs ++ [(k, v)] := by
  unfold set_field
  rw [h]
  rfl

theorem normalize_list_eq_map (ck : String) (l : List Jval) :
    normalize_list ck l = l.map (normalize_node ck) := by
  induction l with
  | nil => rfl
  | cons v rest ih => simp only [normalize_list, List.map_cons, ih]

theorem normalize_children_eq_arr (ck : String) (l : List Jval) :
    normalize_children ck (.arr l) = normalize_list ck l := rfl

theorem normalize_children_eq_single (ck : String) (v : Jval) (h : is_array_val v = false) :
    normalize_children ck v = [normalize_node ck v] := by
  cases v <;> first | rfl | exact absurd h (by simp [is_array_val])

theorem normalize_fields_eq_lookup (ck : String) (fs : List (String × Jval)) :
    normalize_fields ck fs = normalize_forest ck (lookup_field ck fs) := by
  induction fs with
  | nil => rfl
  | cons e rest ih =>
    simp only [normalize_fields, lookup_field]
    by_cases h : e.1 = ck
    · rw [if_pos h, if_pos h]
      cases e with
      | mk k v => rfl
    · rw [if_neg h, if_neg h]
      exact ih

theorem nd_children_normalize_obj (ck : String) (fields : List (String × Jval)) :
    nd_children (normalize_node ck (.obj fields)) =
      normalize_forest ck (lookup_field ck fields) := by
  simp only [normalize_node, nd_children]
  exact normalize_fields_eq_lookup ck fields

theorem build_output_node_nil (no : NormalizedOptions) (n : Nd) :
    build_output_node no n [] = get_node_payload n := by
  cases hip : nd_is_primitive n <;> simp [build_output_node, get_node_payload, hip]

/- ---------------------------------------------------------------------
Lemmas connecting the post-order traversal, addresses and `node_at`.
--------------------------------------------------------------------- -/

theorem node_at_list_some_mem (cs : List Nd) :
    ∀ (j : Nat) (t : Addr) (m : Nd), node_at_list cs j t = some m →
      ∃ c ∈ cs, node_at c t = some m := by
  induction cs with
  | nil => intro j t m h; simp [node_at_list] at h
  | cons c rest ih =>
    intro j t m h
    cases j with
    | zero => exact ⟨c, by simp, h⟩
    | succ j' =>
      obtain ⟨c', hc', hn⟩ := ih j' t m h
      exact ⟨c', by simp [hc'], hn⟩

theorem mem_post_list_node_at (n : Nd) :
    ∀ (addr b : Addr) (m : Nd), (b, m) ∈ post_list addr n →
      ∃ t, b = addr ++ t ∧ node_at n t = some m := by
  induction n using nd_strong_induction with
  | h p cs ip rv ih =>
    have aux : ∀ (cs' : List Nd),
        (∀ c ∈ cs', ∀ addr b m, (b, m) ∈ post_list addr c →
          ∃ t, b = addr ++ t ∧ node_at c t = some m) →
        ∀ (i : Nat) (addr b : Addr) (m : Nd), (b, m) ∈ post_children addr i cs' →
          ∃ j t, b = addr ++ (i + j) :: t ∧ node_at_list cs' j t = some m := by
      intro cs'
      induction cs' with
      | nil => intro _ i addr b m hm; simp [post_children] at hm
      | cons c rest ihcs =>
        intro hall i addr b m hm
        simp only [post_children, List.mem_append] at hm
        rcases hm with hm | hm
        · obtain ⟨t, hb, hnode⟩ := hall c (by simp) (addr ++ [i]) b m hm
          refine ⟨0, t, ?_, hnode⟩
          simpa using hb
        · obtain ⟨j, t, hb, hnode⟩ := ihcs (fun c hc => hall c (by simp [hc])) (i + 1) addr b m hm
          refine ⟨j + 1, t, ?_, hnode⟩
          rw [hb]
          congr 2
          omega
    intro addr b m hmem
    simp only [post_list, List.mem_append, List.mem_singleton] at hmem
    rcases hmem with hm | hm
    · obtain ⟨j, t, hb, hn⟩ := aux cs ih 0 addr b m hm
      refine ⟨j :: t, by simpa using hb, ?_⟩
      simpa [node_at] using hn
    · obtain ⟨hb, hmm⟩ := Prod.mk.injEq .. ▸ hm
      refine ⟨[], by simp [hb], by simp [node_at, hmm]⟩

theorem mem_post_list_root (root_node : Nd) (b : Addr) (m : Nd)
    (h : (b, m) ∈ post_list [] root_node) : node_at root_node b = some m := by
  obtain ⟨t, hb, hn⟩ := mem_post_list_node_at root_node [] b m h
  rw [List.nil_append] at hb
  rw [hb]
  exact hn

theorem post_list_addr_unique (root_node : Nd) (b : Addr) (m1 m2 : Nd)
    (h1 : (b, m1) ∈ post_list [] root_node) (h2 : (b, m2) ∈ post_list [] root_node) :
    m1 = m2 := by
  have e1 := mem_post_list_root root_node b m1 h1
  have e2 := mem_post_list_root root_node b m2 h2
  rw [e1] at e2
  exact Option.some.inj e2

theorem node_at_mem_post_list (n : Nd) :
    ∀ (t : Addr) (m : Nd), node_at n t = some m →
      ∀ addr, (addr ++ t, m) ∈ post_list addr n := by
  induction n using nd_strong_induction with
  | h p cs ip rv ih =>
    have aux : ∀ (cs' : List Nd),
        (∀ c ∈ cs', ∀ t m, node_at c t = some m → ∀ addr, (addr ++ t, m) ∈ post_list addr c) →
        ∀ (j : Nat) (t : Addr) (m : Nd), node_at_list cs' j t = some m →
          ∀ (addr : Addr) (i : Nat), (addr ++ (i + j) :: t, m) ∈ post_children addr i cs' := by
      intro cs'
      induction cs' with
      | nil => intro _ j t m h; simp [node_at_list] at h
      | cons c rest ihcs =>
        intro hall j t m h addr i
        cases j with
        | zero =>
          have := hall c (by simp) t m h (addr ++ [i])
          simp only [post_children, List.mem_append]
          left
          simpa using this
        | succ j' =>
          have := ihcs (fun c hc => hall c (by simp [hc])) j' t m h addr (i + 1)
          simp only [post_children, List.mem_append]
          right
          have harith : i + 1 + j' = i + (j' + 1) := by omega
          rwa [harith] at this
    intro t m hn addr
    cases t with
    | nil =>
      simp only [node_at, Option.some.injEq] at hn
      subst hn
      simp [post_list]
    | cons i rest =>
      simp only [node_at] at hn
      have := aux cs ih i rest m hn addr 0
      simp only [post_list, List.mem_append]
      left
      simpa using this

theorem node_at_append (n : Nd) :
    ∀ (a b : Addr), node_at n (a ++ b) = (node_at n a).bind (fun m => node_at m b) := by
  induction n using nd_strong_induction with
  | h p cs ip rv ih =>
    have aux : ∀ (cs' : List Nd),
        (∀ c ∈ cs', ∀ a b, node_at c (a ++ b) = (node_at c a).bind (fun m => node_at m b)) →
        ∀ (j : Nat) (a b : Addr),
          node_at_list cs' j (a ++ b) = (node_at_list cs' j a).bind (fun m => node_at m b) := by
      intro cs'
      induction cs' with
      | nil => intro _ j a b; simp [node_at_list]
      | cons c rest ihcs =>
        intro hall j a b
        cases j with
        | zero => exact hall c (by simp) a b
        | succ j' => exact ihcs (fun c hc => hall c (by simp [hc])) j' a b
    intro a b
    cases a with
    | nil => rfl
    | cons i rest => simpa [node_at] using aux cs ih i rest b

theorem nd_height_le_of_mem (cs : List Nd) (c : Nd) (hc : c ∈ cs) :
    nd_height c ≤ nd_height_list cs := by
  induction cs with
  | nil => cases hc
  | cons x rest ih =>
    rcases List.mem_cons.mp hc with h | h
    · subst h; simp [nd_height_list]
    · calc nd_height c ≤ nd_height_list rest := ih h
        _ ≤ nd_height_list (x :: rest) := by simp [nd_height_list]

theorem node_at_length_lt_height (n : Nd) :
    ∀ (t : Addr) (m : Nd), node_at n t = some m → t.length < nd_height n := by
  induction n using nd_strong_induction with
  | h p cs ip rv ih =>
    intro t m hn
    cases t with
    | nil => simp [nd_height]
    | cons i rest =>
      simp only [node_at] at hn
      obtain ⟨c, hc, hcn⟩ := node_at_list_some_mem cs i rest m hn
      have h1 := ih c hc rest m hcn
      have h2 := nd_height_le_of_mem cs c hc
      simp only [nd_height, List.length_cons]
      omega

theorem exists_childless_descendant (n : Nd) :
    ∃ t m, node_at n t = some m ∧ nd_children m = [] := by
  induction n using nd_strong_induction with
  | h p cs ip rv ih =>
    cases cs with
    | nil => exact ⟨[], .mk p [] ip rv, rfl, rfl⟩
    | cons c rest =>
      obtain ⟨t, m, h1, h2⟩ := ih c (by simp)
      exact ⟨0 :: t, m, by simpa [node_at, node_at_list] using h1, h2⟩

theorem all_unflagged_list_mem (cs : List Nd) (h : all_unflagged_list cs = true) :
    ∀ c ∈ cs, all_unflagged c = true := by
  induction cs with
  | nil => intro c hc; cases hc
  | cons x rest ih =>
    simp only [all_unflagged_list, Bool.and_eq_true] at h
    intro c hc
    rcases List.mem_cons.mp hc with h1 | h1
    · exact h1 ▸ h.1
    · exact ih h.2 c h1

theorem all_unflagged_node_at (n : Nd) :
    ∀ (t : Addr) (m : Nd), node_at n t = some m → all_unflagged n = true →
      all_unflagged m = true := by
  induction n using nd_strong_induction with
  | h p cs ip rv ih =>
    intro t m hn hall
    cases t with
    | nil => simp only [node_at, Option.some.injEq] at hn; exact hn ▸ hall
    | cons i rest =>
      simp only [node_at] at hn
      obtain ⟨c, hc, hcn⟩ := node_at_list_some_mem cs i rest m hn
      have hl : all_unflagged_list cs = true := by
        simp only [all_unflagged, Bool.and_eq_true] at hall
        exact hall.2
      exact ih c hc rest m hcn (all_unflagged_list_mem cs hl c hc)

theorem not_flagged_of_all_unflagged (n : Nd) (h : all_unflagged n = true) :
    flagged n = false := by
  cases n with
  | mk p cs ip rv =>
    simp only [all_unflagged, Bool.and_eq_true] at h
    simpa using h.1

/- ---------------------------------------------------------------------
Lemmas on the filtered ancestor path of a node.
--------------------------------------------------------------------- -/

theorem node_at_isSome_of_take (root_node : Nd) (a : Addr) (mf : Nd) (k : Nat)
    (h : node_at root_node a = some mf) : (node_at root_node (a.take k)).isSome := by
  have hsplit : a.take k ++ a.drop k = a := List.take_append_drop k a
  have := node_at_append root_node (a.take k) (a.drop k)
  rw [hsplit, h] at this
  cases hk : node_at root_node (a.take k) with
  | none => rw [hk] at this; simp at this
  | some m => simp

theorem addr_inits_eq_cons (a : Addr) :
    addr_inits a = [] :: (List.range a.length).map (fun j => a.take (j + 1)) := by
  unfold addr_inits
  rw [List.range_succ_eq_map]
  simp [List.map_map, Function.comp_def]

theorem addr_inits_eq_append (a : Addr) :
    addr_inits a = ((List.range a.length).map fun k => a.take k) ++ [a] := by
  unfold addr_inits
  rw [List.range_succ]
  simp

theorem full_path_fst (root_node : Nd) (l : List Addr)
    (h : ∀ p ∈ l, (node_at root_node p).isSome) :
    (l.filterMap (fun p => (node_at root_node p).map (fun n => (p, n)))).map (·.1) = l := by
  induction l with
  | nil => rfl
  | cons p rest ih =>
    have hp := h p (by simp)
    cases hk : node_at root_node p with
    | none => rw [hk] at hp; simp at hp
    | some n =>
      simp only [List.filterMap_cons, hk, Option.map_some']
      simp only [List.map_cons]
      rw [ih fun q hq => h q (by simp [hq])]

theorem leaf_path_filtered_last (root_node : Nd) (a : Addr) (mf : Nd)
    (hnode : node_at root_node a = some mf) (hleaf : flagged mf = false) :
    ∃ pre, leaf_path_filtered root_node a = pre ++ [(a, mf)] := by
  unfold leaf_path_filtered
  rw [addr_inits_eq_append, List.filterMap_append, List.filter_append]
  refine ⟨(((List.range a.length).map fun k => a.take k).filterMap
    (fun p => (node_at root_node p).map (fun n => (p, n)))).filter
      (fun pn => !flagged pn.2), ?_⟩
  simp [List.filterMap_cons, hnode, List.filter_cons, hleaf]

theorem tail_slice_append_one (pre : List (Addr × Nd)) (x : Addr × Nd) :
    tail_slice (pre ++ [x]) 1 = [x] := by
  unfold tail_slice
  simp only [List.length_append, List.length_singleton]
  have : pre.length + 1 - 1 = pre.length := by omega
  rw [this]
  rw [List.drop_append_of_le_length (by omega)]
  simp

theorem flatMap_eq_self {α : Type} (l : List α) (g : α → List α)
    (h : ∀ a ∈ l, g a = [a]) : l.flatMap g = l := by
  induction l with
  | nil => rfl
  | cons x rest ih =>
    rw [List.flatMap_cons, h x (by simp), ih fun a ha => h a (by simp [ha])]
    rfl

theorem collect_selected_level_one (root_node : Nd) :
    collect_selected_nodes root_node ((get_leaf_nodes root_node).map (·.1)) 1 =
      (get_leaf_nodes root_node).map (·.1) := by
  unfold collect_selected_nodes
  apply flatMap_eq_self
  intro a ha
  obtain ⟨an, han, rfl⟩ := List.mem_map.mp ha
  have hmem : (an.1, an.2) ∈ get_leaf_nodes root_node := by simpa using han
  unfold get_leaf_nodes at hmem
  have hpost := List.mem_filter.mp hmem
  have hflag : flagged an.2 = false := by
    have := hpost.2
    simp only [Bool.and_eq_true, Bool.not_eq_eq_eq_not, Bool.not_true] at this
    exact this.1
  have hnode : node_at root_node an.1 = some an.2 := mem_post_list_root _ _ _ hpost.1
  obtain ⟨pre, hpre⟩ := leaf_path_filtered_last root_node an.1 an.2 hnode hflag
  rw [hpre, tail_slice_append_one]
  rfl

/- ---------------------------------------------------------------------
The rebuilder against a selected-address set versus the predicate-driven
reference rebuilder.
--------------------------------------------------------------------- -/

theorem node_at_list_nil_eq_get (cs : List Nd) : ∀ j, node_at_list cs j [] = cs[j]? := by
  induction cs with
  | nil => intro j; cases j <;> simp [node_at_list]
  | cons c rest ih =>
    intro j
    cases j with
    | zero => simp [node_at_list, node_at]
    | succ j' => simpa [node_at_list] using ih j'

theorem collect_output_eq_by_pred (no : NormalizedOptions) (sel : List Addr)
    (root_node : Nd) (P : Nd → Bool)
    (hsel : ∀ b m, (b, m) ∈ post_list [] root_node → (b ∈ sel ↔ P m = true)) :
    ∀ n, ∀ addr, node_at root_node addr = some n →
      collect_output_nodes no sel addr n = collect_by_pred no P n := by
  intro n
  induction n using nd_strong_induction with
  | h p cs ip rv ih =>
    intro addr haddr
    have aux : ∀ (cs' : List Nd),
        (∀ c ∈ cs', ∀ addr, node_at root_node addr = some c →
          collect_output_nodes no sel addr c = collect_by_pred no P c) →
        ∀ (a : Addr) (i : Nat),
          (∀ (j : Nat) (c : Nd), cs'[j]? = some c → node_at root_node (a ++ [i + j]) = some c) →
          collect_output_list no sel a i cs' = collect_by_pred_list no P cs' := by
      intro cs'
      induction cs' with
      | nil => intro _ a i _; rfl
      | cons c rest ihcs =>
        intro hall a i hj
        have hc : node_at root_node (a ++ [i]) = some c := by
          have := hj 0 c (by simp)
          simpa using this
        have hrest : ∀ (j : Nat) (c' : Nd), rest[j]? = some c' →
            node_at root_node (a ++ [i + 1 + j]) = some c' := by
          intro j c' hjc
          have := hj (j + 1) c' (by simpa using hjc)
          have harith : i + (j + 1) = i + 1 + j := by omega
          rwa [harith] at this
        simp only [collect_output_list, collect_by_pred_list]
        rw [hall c (by simp) (a ++ [i]) hc,
          ihcs (fun c' hc' => hall c' (by simp [hc'])) a (i + 1) hrest]
    have hch : ∀ (j : Nat) (c : Nd), cs[j]? = some c →
        node_at root_node (addr ++ [0 + j]) = some c := by
      intro j c hjc
      have := node_at_append root_node addr [j]
      rw [haddr] at this
      have hstep : node_at (Nd.mk p cs ip rv) [j] = some c := by
        simp only [node_at]
        rw [node_at_list_nil_eq_get]
        exact hjc
      rw [Nat.zero_add]
      rw [this]
      exact hstep
    have hlist := aux cs ih addr 0 hch
    have hmem : (addr, Nd.mk p cs ip rv) ∈ post_list [] root_node := by
      have := node_at_mem_post_list root_node addr (Nd.mk p cs ip rv) haddr []
      simpa using this
    have hiff := hsel addr (Nd.mk p cs ip rv) hmem
    simp only [collect_output_nodes, collect_by_pred, hlist]
    by_cases hp : P (Nd.mk p cs ip rv) = true
    · rw [if_pos (hiff.mpr hp), if_pos hp]
    · rw [if_neg (fun hin => hp (hiff.mp hin)), if_neg hp]

theorem collect_output_list_eq_by_pred (no : NormalizedOptions) (sel : List Addr)
    (root_node : Nd) (P : Nd → Bool)
    (hsel : ∀ b m, (b, m) ∈ post_list [] root_node → (b ∈ sel ↔ P m = true))
    (cs : List Nd) (a : Addr) (i : Nat)
    (hj : ∀ (j : Nat) (c : Nd), cs[j]? = some c → node_at root_node (a ++ [i + j]) = some c) :
    collect_output_list no sel a i cs = collect_by_pred_list no P cs := by
  induction cs generalizing i with
  | nil => rfl
  | cons c rest ihcs =>
    have hc : node_at root_node (a ++ [i]) = some c := by
      have := hj 0 c (by simp)
      simpa using this
    have hrest : ∀ (j : Nat) (c' : Nd), rest[j]? = some c' →
        node_at root_node (a ++ [i + 1 + j]) = some c' := by
      intro j c' hjc
      have := hj (j + 1) c' (by simpa using hjc)
      have harith : i + (j + 1) = i + 1 + j := by omega
      rwa [harith] at this
    simp only [collect_output_list, collect_by_pred_list]
    rw [collect_output_eq_by_pred no sel root_node P hsel c (a ++ [i]) hc, ihcs (i + 1) hrest]

theorem mem_filter_map_fst_iff (root_node : Nd) (Q : Nd → Bool) (b : Addr) (m : Nd)
    (hm : (b, m) ∈ post_list [] root_node) :
    b ∈ (((post_list [] root_node).filter (fun an => Q an.2)).map (·.1)) ↔ Q m = true := by
  constructor
  · intro hb
    obtain ⟨an, han, hfst⟩ := List.mem_map.mp hb
    have hfm := List.mem_filter.mp han
    have : an.2 = m := by
      have h2 : (b, an.2) ∈ post_list [] root_node := by
        have : an = (an.1, an.2) := rfl
        rw [hfst] at this
        exact this ▸ hfm.1
      exact post_list_addr_unique root_node b an.2 m h2 hm
    exact this ▸ hfm.2
  · intro hQ
    exact List.mem_map.mpr ⟨(b, m), List.mem_filter.mpr ⟨hm, hQ⟩, rfl⟩

/- ---------------------------------------------------------------------
The dynamic filter recursion as a predicate-driven rebuild.
--------------------------------------------------------------------- -/

theorem filter_one_eq_collect_by_pred (no : NormalizedOptions) (p : Jval → Bool) :
    ∀ n, filter_one_node no p n = collect_by_pred no (fun m => p (get_node_payload m)) n := by
  intro n
  induction n using nd_strong_induction with
  | h pl cs ip rv ih =>
    have hlist : ∀ (l : List Nd),
        (∀ c ∈ l, filter_one_node no p c = collect_by_pred no (fun m => p (get_node_payload m)) c) →
        filter_nodes no p l = collect_by_pred_list no (fun m => p (get_node_payload m)) l := by
      intro l
      induction l with
      | nil => intro _; rfl
      | cons c rest ihcs =>
        intro hall
        simp only [filter_nodes, collect_by_pred_list]
        rw [hall c (by simp), ihcs fun c' hc' => hall c' (by simp [hc'])]
    simp only [filter_one_node, collect_by_pred]
    rw [hlist cs ih]
    by_cases hp : p (get_node_payload (Nd.mk pl cs ip rv)) = true
    · simp [hp]
    · have hp' : p (get_node_payload (Nd.mk pl cs ip rv)) = false := by
        cases hres : p (get_node_payload (Nd.mk pl cs ip rv))
        · rfl
        · exact absurd hres hp
      simp only [hp', Bool.not_false, Bool.true_and, if_neg (by simp : ¬(false = true))]
      cases hemp : (collect_by_pred_list no (fun m => p (get_node_payload m)) cs).isEmpty
      · simp
      · simp only [if_pos rfl]
        exact (List.isEmpty_iff.mp hemp).symm

theorem filter_nodes_eq_collect_by_pred (no : NormalizedOptions) (p : Jval → Bool)
    (l : List Nd) :
    filter_nodes no p l = collect_by_pred_list no (fun m => p (get_node_payload m)) l := by
  induction l with
  | nil => rfl
  | cons c rest ihcs =>
    simp only [filter_nodes, collect_by_pred_list]
    rw [filter_one_eq_collect_by_pred no p c, ihcs]

/- ---------------------------------------------------------------------
The predicate-driven rebuild at the leaf predicate lists exactly the leaf
payloads, in post order.
--------------------------------------------------------------------- -/

theorem collect_by_pred_leaf (no : NormalizedOptions) :
    ∀ n (addr : Addr), collect_by_pred no leaf_pred n =
      ((post_list addr n).filter (fun an => leaf_pred an.2)).map
        (fun an => get_node_payload an.2) := by
  intro n
  induction n using nd_strong_induction with
  | h p cs ip rv ih =>
    intro addr
    have hlist : ∀ (l : List Nd),
        (∀ c ∈ l, ∀ addr, collect_by_pred no leaf_pred c =
          ((post_list addr c).filter (fun an => leaf_pred an.2)).map
            (fun an => get_node_payload an.2)) →
        ∀ (a : Addr) (i : Nat), collect_by_pred_list no leaf_pred l =
          ((post_children a i l).filter (fun an => leaf_pred an.2)).map
            (fun an => get_node_payload an.2) := by
      intro l
      induction l with
      | nil => intro _ a i; rfl
      | cons c rest ihcs =>
        intro hall a i
        simp only [collect_by_pred_list, post_children, List.filter_append, List.map_append]
        rw [hall c (by simp) (a ++ [i]), ihcs (fun c' hc' => hall c' (by simp [hc'])) a (i + 1)]
    simp only [collect_by_pred, post_list, List.filter_append, List.map_append]
    rw [hlist cs ih addr 0]
    by_cases hp : leaf_pred (Nd.mk p cs ip rv) = true
    · have hcs : cs = [] := by
        have := hp
        simp only [leaf_pred, Bool.and_eq_true, nd_children] at this
        exact List.isEmpty_iff.mp this.2
      subst hcs
      simp [hp, post_children, build_output_node_nil]
    · have hp' : leaf_pred (Nd.mk p cs ip rv) = false := by
        cases hres : leaf_pred (Nd.mk p cs ip rv)
        · rfl
        · exact absurd hres hp
      simp [hp', List.filter_cons]

theorem flagged_build_root (no : NormalizedOptions) (input_data : Option Jval) :
    flagged (build_root no input_data) = true := by
  unfold flagged build_root nd_payload root_payload set_field
  by_cases h : no.value_key = "__leaf_extract_root"
  · simp [lookup_field, h, truthy]
  · simp [lookup_field, h, truthy]

/- ---------------------------------------------------------------------
Assembly lemmas: the output forest of `extract_leaf_levels` at level 1, and
`filter_tree` as a selected-set rebuild.
--------------------------------------------------------------------- -/

theorem node_at_root_child (root_node : Nd) (j : Nat) (c : Nd)
    (h : (nd_children root_node)[j]? = some c) :
    node_at root_node ([] ++ [0 + j]) = some c := by
  cases root_node with
  | mk p cs ip rv =>
    simp only [nd_children] at h
    simp only [List.nil_append, Nat.zero_add, node_at]
    rw [node_at_list_nil_eq_get]
    exact h

theorem collect_by_pred_list_leaf (no : NormalizedOptions) (l : List Nd) (a : Addr) (i : Nat) :
    collect_by_pred_list no leaf_pred l =
      ((post_children a i l).filter (fun an => leaf_pred an.2)).map
        (fun an => get_node_payload an.2) := by
  induction l generalizing i with
  | nil => rfl
  | cons c rest ihcs =>
    simp only [collect_by_pred_list, post_children, List.filter_append, List.map_append]
    rw [collect_by_pred_leaf no c (a ++ [i]), ihcs (i + 1)]

theorem get_leaf_nodes_build_root (no : NormalizedOptions) (input_data : Option Jval) :
    get_leaf_nodes (build_root no input_data) =
      (post_children [] 0 (normalize_forest no.children_key input_data)).filter
        (fun an => leaf_pred an.2) := by
  have hflag := flagged_build_root no input_data
  unfold get_leaf_nodes
  conv_lhs => rw [show build_root no input_data =
    Nd.mk (root_payload no) (normalize_forest no.children_key input_data) false none from rfl]
  simp only [post_list, List.filter_append, List.filter_cons, List.filter_nil]
  have : (!flagged (Nd.mk (root_payload no) (normalize_forest no.children_key input_data)
      false none) && (nd_children (Nd.mk (root_payload no)
        (normalize_forest no.children_key input_data) false none)).isEmpty) = false := by
    have : flagged (Nd.mk (root_payload no) (normalize_forest no.children_key input_data)
        false none) = true := hflag
    simp [this]
  simp only [this, Bool.false_eq_true, if_neg (by simp : ¬False), List.append_nil]
  rfl

theorem extract_forest_level_one (input_data : Option Jval) (options : RawOptions)
    (hlevel : coerce_level options.level = 1) :
    extract_output_forest input_data options =
      (get_leaf_nodes (build_root (resolve_options_with_data input_data options) input_data)).map
        (fun an => get_node_payload an.2) := by
  unfold extract_output_forest
  dsimp only
  rw [hlevel]
  set no := resolve_options_with_data input_data options with hno
  set root_node := build_root no input_data with hroot
  rw [collect_selected_level_one root_node]
  have hforest : normalize_forest no.children_key input_data = nd_children root_node := rfl
  rw [hforest]
  have hsel : ∀ b m, (b, m) ∈ post_list [] root_node →
      (b ∈ ((get_leaf_nodes root_node).map (·.1)) ↔ leaf_pred m = true) := by
    intro b m hm
    have := mem_filter_map_fst_iff root_node leaf_pred b m hm
    unfold get_leaf_nodes
    simpa [leaf_pred] using this
  rw [collect_output_list_eq_by_pred no ((get_leaf_nodes root_node).map (·.1)) root_node
    leaf_pred hsel (nd_children root_node) [] 0
    (fun j c h => node_at_root_child root_node j c h)]
  rw [collect_by_pred_list_leaf no (nd_children root_node) [] 0]
  rw [show nd_children root_node = normalize_forest no.children_key input_data from rfl]
  rw [← get_leaf_nodes_build_root no input_data]

/- ---------------------------------------------------------------------
Monotonicity of the selected set in the level.
--------------------------------------------------------------------- -/

theorem resolve_ignores_level (input_data : Option Jval) (options : RawOptions) (x : Option Int) :
    resolve_options_with_data input_data { options with level := x } =
      resolve_options_with_data input_data options := rfl

theorem coerce_level_mono (l1 l2 : Int) (h : l1 ≤ l2) :
    coerce_level (some l1) ≤ coerce_level (some l2) := by
  show (if 1 ≤ l1 then l1.toNat else 1) ≤ (if 1 ≤ l2 then l2.toNat else 1)
  split_ifs <;> omega

theorem tail_slice_subset (l : List (Addr × Nd)) (lv1 lv2 : Nat) (h : lv1 ≤ lv2) :
    ∀ x ∈ tail_slice l lv1, x ∈ tail_slice l lv2 := by
  intro x hx
  unfold tail_slice at hx ⊢
  have heq : l.length - lv1 = (l.length - lv2) + ((l.length - lv1) - (l.length - lv2)) := by
    omega
  rw [heq, ← List.drop_drop] at hx
  exact List.drop_subset _ _ hx

theorem collect_selected_subset (root_node : Nd) (leaf_addrs : List Addr) (lv1 lv2 : Nat)
    (h : lv1 ≤ lv2) :
    ∀ b ∈ collect_selected_nodes root_node leaf_addrs lv1,
      b ∈ collect_selected_nodes root_node leaf_addrs lv2 := by
  intro b hb
  unfold collect_selected_nodes at hb ⊢
  rw [List.mem_flatMap] at hb ⊢
  obtain ⟨a, ha, hbmem⟩ := hb
  refine ⟨a, ha, ?_⟩
  rw [List.mem_map] at hbmem ⊢
  obtain ⟨x, hx, hfst⟩ := hbmem
  exact ⟨x, tail_slice_subset _ lv1 lv2 h x hx, hfst⟩

theorem dedup_length_mono {α : Type} [DecidableEq α] (l1 l2 : List α)
    (h : ∀ x ∈ l1, x ∈ l2) : l1.dedup.length ≤ l2.dedup.length := by
  rw [← List.card_toFinset, ← List.card_toFinset]
  apply Finset.card_le_card
  intro x hx
  rw [List.mem_toFinset] at hx ⊢
  exact h x hx

theorem extract_selected_count_mono (input_data : Option Jval) (options : RawOptions)
    (l1 l2 : Int) (h : l1 ≤ l2) :
    (extract_leaf_levels input_data { options with level := some l1 }).meta.selected_count ≤
      (extract_leaf_levels input_data { options with level := some l2 }).meta.selected_count := by
  simp only [extract_leaf_levels]
  apply dedup_length_mono
  apply collect_selected_subset
  exact coerce_level_mono l1 l2 h

/- ---------------------------------------------------------------------
When every node of a subtree is selected, the rebuilder emits the full
re-emission of the subtree.
--------------------------------------------------------------------- -/

theorem collect_output_all_selected (no : NormalizedOptions) (sel : List Addr) :
    ∀ n (addr : Addr), (∀ b ∈ (post_list addr n).map (·.1), b ∈ sel) →
      collect_output_nodes no sel addr n = [rebuild_node no n] := by
  intro n
  induction n using nd_strong_induction with
  | h p cs ip rv ih =>
    intro addr hall
    have aux : ∀ (l : List Nd),
        (∀ c ∈ l, ∀ addr, (∀ b ∈ (post_list addr c).map (·.1), b ∈ sel) →
          collect_output_nodes no sel addr c = [rebuild_node no c]) →
        ∀ (a : Addr) (i : Nat), (∀ b ∈ (post_children a i l).map (·.1), b ∈ sel) →
          collect_output_list no sel a i l = rebuild_list no l := by
      intro l
      induction l with
      | nil => intro _ a i _; rfl
      | cons c rest ihcs =>
        intro hl a i hsub
        simp only [collect_output_list, rebuild_list]
        rw [hl c (by simp) (a ++ [i]) (fun b hb => hsub b (by
          simp only [post_children, List.map_append, List.mem_append]
          exact Or.inl hb)),
          ihcs (fun c' hc' => hl c' (by simp [hc'])) a (i + 1) (fun b hb => hsub b (by
            simp only [post_children, List.map_append, List.mem_append]
            exact Or.inr hb))]
        rfl
    have hself : addr ∈ sel := by
      apply hall
      simp [post_list]
    have hlist := aux cs ih addr 0 (fun b hb => hall b (by
      simp only [post_list, List.map_append, List.mem_append]
      exact Or.inl hb))
    simp only [collect_output_nodes, hlist, if_pos hself, rebuild_node]

theorem collect_output_list_all_selected (no : NormalizedOptions) (sel : List Addr)
    (l : List Nd) (a : Addr) (i : Nat)
    (hsub : ∀ b ∈ (post_children a i l).map (·.1), b ∈ sel) :
    collect_output_list no sel a i l = rebuild_list no l := by
  induction l generalizing i with
  | nil => rfl
  | cons c rest ihcs =>
    simp only [collect_output_list, rebuild_list]
    rw [collect_output_all_selected no sel c (a ++ [i]) (fun b hb => hsub b (by
      simp only [post_children, List.map_append, List.mem_append]
      exact Or.inl hb)),
      ihcs (i + 1) (fun b hb => hsub b (by
        simp only [post_children, List.map_append, List.mem_append]
        exact Or.inr hb))]
    rfl

theorem mem_post_children_addr (l : List Nd) :
    ∀ (addr : Addr) (i : Nat) (b : Addr) (m : Nd), (b, m) ∈ post_children addr i l →
      ∃ j t, b = addr ++ j :: t := by
  induction l with
  | nil => intro addr i b m hm; simp [post_children] at hm
  | cons c rest ih =>
    intro addr i b m hm
    simp only [post_children, List.mem_append] at hm
    rcases hm with hm | hm
    · obtain ⟨t, hb, _⟩ := mem_post_list_node_at c (addr ++ [i]) b m hm
      exact ⟨i, t, by simp [hb]⟩
    · exact ih addr (i + 1) b m hm

/- ---------------------------------------------------------------------
The fully-resolved filtered ancestor path.
--------------------------------------------------------------------- -/

theorem tail_slice_of_le (l : List (Addr × Nd)) (level : Nat) (h : l.length ≤ level) :
    tail_slice l level = l := by
  unfold tail_slice
  rw [Nat.sub_eq_zero_of_le h]
  exact List.drop_zero l

theorem leaf_path_filtered_full (root_node : Nd) (a : Addr) (mf : Nd)
    (hnode : node_at root_node a = some mf)
    (hroot : flagged root_node = true)
    (hpos : ∀ (p : Addr) (m : Nd), p ≠ [] → node_at root_node p = some m → flagged m = false) :
    (leaf_path_filtered root_node a).map (·.1) =
      (List.range a.length).map (fun j => a.take (j + 1)) ∧
    (leaf_path_filtered root_node a).length = a.length := by
  unfold leaf_path_filtered
  rw [addr_inits_eq_cons]
  simp only [List.filterMap_cons]
  have hroot_at : node_at root_node [] = some root_node := by
    cases root_node with
    | mk a1 a2 a3 a4 => rfl
  rw [hroot_at]
  simp only [Option.map_some']
  rw [List.filter_cons]
  simp only [hroot, Bool.not_true]
  rw [if_neg (by simp)]
  have htotal : ∀ p ∈ (List.range a.length).map (fun j => a.take (j + 1)),
      (node_at root_node p).isSome := by
    intro p hp
    obtain ⟨j, _, rfl⟩ := List.mem_map.mp hp
    exact node_at_isSome_of_take root_node a mf (j + 1) hnode
  have hkeep : ((List.range a.length).map (fun j => a.take (j + 1))).filterMap
      (fun p => (node_at root_node p).map (fun n => (p, n))) =
      (((List.range a.length).map (fun j => a.take (j + 1))).filterMap
        (fun p => (node_at root_node p).map (fun n => (p, n)))).filter
          (fun pn => !flagged pn.2) := by
    symm
    apply List.filter_eq_self.mpr
    intro pn hpn
    obtain ⟨p, hp, hfp⟩ := List.mem_filterMap.mp hpn
    obtain ⟨j, hj, rfl⟩ := List.mem_map.mp hp
    cases hk : node_at root_node (a.take (j + 1)) with
    | none => rw [hk] at hfp; simp at hfp
    | some n =>
      rw [hk] at hfp
      simp only [Option.map_some', Option.some.injEq] at hfp
      have hne : a.take (j + 1) ≠ [] := by
        have hjlt := List.mem_range.mp hj
        have : a ≠ [] := by
          intro hnil
          rw [hnil] at hjlt
          simp at hjlt
        simp [List.take_eq_nil_iff, this]
      have := hpos (a.take (j + 1)) n hne hk
      rw [← hfp]
      simp [this]
  constructor
  · rw [← hkeep]
    exact full_path_fst root_node _ htotal
  · rw [← hkeep]
    have := congrArg List.length (full_path_fst root_node _ htotal)
    simpa using this

/- ---------------------------------------------------------------------
At a level at least the forest height, every non-sentinel node is selected.
--------------------------------------------------------------------- -/

theorem all_unflagged_below_root (root_node : Nd)
    (hunflag : all_unflagged_list (nd_children root_node) = true) :
    ∀ (p : Addr) (m : Nd), p ≠ [] → node_at root_node p = some m →
      all_unflagged m = true := by
  intro p m hp hnode
  cases root_node with
  | mk rp cs rip rrv =>
    cases p with
    | nil => exact absurd rfl hp
    | cons i t =>
      simp only [node_at] at hnode
      obtain ⟨c, hc, hcn⟩ := node_at_list_some_mem cs i t m hnode
      exact all_unflagged_node_at c t m hcn
        (all_unflagged_list_mem cs (by simpa [nd_children] using hunflag) c hc)

theorem selected_all_of_big_level (root_node : Nd) (level : Nat)
    (hroot : flagged root_node = true)
    (hunflag : all_unflagged_list (nd_children root_node) = true)
    (hlevel : nd_height_list (nd_children root_node) ≤ level)
    (b : Addr) (m : Nd) (hmem : (b, m) ∈ post_list [] root_node) (hb : b ≠ []) :
    b ∈ collect_selected_nodes root_node ((get_leaf_nodes root_node).map (·.1)) level := by
  have hnode : node_at root_node b = some m := mem_post_list_root root_node b m hmem
  obtain ⟨t, mf, hmf, hchildless⟩ := exists_childless_descendant m
  have hleafnode : node_at root_node (b ++ t) = some mf := by
    have := node_at_append root_node b t
    rw [hnode] at this
    rw [this]
    exact hmf
  have hlne : b ++ t ≠ [] := by
    intro hcontra
    exact hb (List.append_eq_nil.mp hcontra).1
  have hmf_unflag : all_unflagged mf = true :=
    all_unflagged_below_root root_node hunflag (b ++ t) mf hlne hleafnode
  have hmf_flag : flagged mf = false := not_flagged_of_all_unflagged mf hmf_unflag
  have hleafmem : (b ++ t, mf) ∈ get_leaf_nodes root_node := by
    unfold get_leaf_nodes
    apply List.mem_filter.mpr
    refine ⟨?_, ?_⟩
    · have := node_at_mem_post_list root_node (b ++ t) mf hleafnode []
      simpa using this
    · simp [hmf_flag, hchildless]
  have hpos : ∀ (p : Addr) (m' : Nd), p ≠ [] → node_at root_node p = some m' →
      flagged m' = false := by
    intro p m' hp hn
    exact not_flagged_of_all_unflagged m' (all_unflagged_below_root root_node hunflag p m' hp hn)
  obtain ⟨hmapfst, hlen⟩ := leaf_path_filtered_full root_node (b ++ t) mf hleafnode hroot hpos
  have hlen_le : (b ++ t).length ≤ level := by
    have hlt := node_at_length_lt_height root_node (b ++ t) mf hleafnode
    cases root_node with
    | mk rp cs rip rrv =>
      simp only [nd_height] at hlt
      simp only [nd_children] at hlevel
      omega
  unfold collect_selected_nodes
  apply List.mem_flatMap.mpr
  refine ⟨b ++ t, List.mem_map.mpr ⟨(b ++ t, mf), hleafmem, rfl⟩, ?_⟩
  rw [tail_slice_of_le _ level (by rw [hlen]; exact hlen_le)]
  rw [hmapfst]
  apply List.mem_map.mpr
  refine ⟨b.length - 1, List.mem_range.mpr ?_, ?_⟩
  · have hb1 : 1 ≤ b.length := by
      cases b with
      | nil => exact absurd rfl hb
      | cons x xs => simp
    have : b.length ≤ (b ++ t).length := by simp
    omega
  · have hb1 : 1 ≤ b.length := by
      cases b with
      | nil => exact absurd rfl hb
      | cons x xs => simp
    have heq : b.length - 1 + 1 = b.length := by omega
    rw [heq]
    exact List.take_left b t

/- ---------------------------------------------------------------------
Size-based induction over values, and the canonical-form analysis.
--------------------------------------------------------------------- -/

theorem jval_size_induction {P : Jval → Prop}
    (h : ∀ v, (∀ w, jsize w < jsize v → P w) → P v) : ∀ v, P v := by
  intro v
  generalize hn : jsize v = n
  induction n using Nat.strong_induction_on generalizing v with
  | _ n ih =>
    subst hn
    exact h v fun w hw => ih (jsize w) hw w rfl

theorem jsize_le_of_mem_list (l : List Jval) (v : Jval) (hv : v ∈ l) :
    jsize v ≤ jsize_list l := by
  induction l with
  | nil => cases hv
  | cons x rest ih =>
    rcases List.mem_cons.mp hv with h | h
    · subst h; simp only [jsize_list]; omega
    · have := ih h; simp only [jsize_list]; omega

theorem jsize_le_of_mem_fields (fs : List (String × Jval)) (e : String × Jval) (he : e ∈ fs) :
    jsize e.2 ≤ jsize_fields fs := by
  induction fs with
  | nil => cases he
  | cons x rest ih =>
    rcases List.mem_cons.mp he with h | h
    · subst h
      simp only [jsize_fields]
      have : jsize_entry e = jsize e.2 := by cases e with | mk a b => rfl
      omega
    · have := ih h; simp only [jsize_fields]; omega

theorem canonical_list_mem (ck : String) (l : List Jval) (h : canonical_list ck l = true) :
    ∀ v ∈ l, canonical_tree ck v = true := by
  induction l with
  | nil => intro v hv; cases hv
  | cons x rest ih =>
    simp only [canonical_list, Bool.and_eq_true] at h
    intro v hv
    rcases List.mem_cons.mp hv with h1 | h1
    · exact h1 ▸ h.1
    · exact ih h.2 v h1

theorem canonical_fields_cases (ck : String) (fs : List (String × Jval))
    (h : canonical_fields ck fs = true) :
    (∀ e ∈ fs, e.1 ≠ ck) ∨
    ∃ base x xs, fs = base ++ [(ck, .arr (x :: xs))] ∧ (∀ e ∈ base, e.1 ≠ ck) ∧
      canonical_tree ck x = true ∧ canonical_list ck xs = true := by
  induction fs with
  | nil => left; intro e he; cases he
  | cons e rest ih =>
    simp only [canonical_fields] at h
    cases hrest : rest.isEmpty with
    | true =>
      have hrest_nil : rest = [] := List.isEmpty_iff.mp hrest
      subst hrest_nil
      have h : (if e.1 = ck then canonical_ck_value ck e.2 else true) = true := by
        simpa using h
      by_cases hk : e.1 = ck
      · rw [if_pos hk] at h
        cases he2 : e.2 with
        | arr items =>
          cases items with
          | nil => rw [he2] at h; simp [canonical_ck_value] at h
          | cons x xs =>
            rw [he2] at h
            simp only [canonical_ck_value, Bool.and_eq_true] at h
            right
            refine ⟨[], x, xs, ?_, fun e' he' => absurd he' (List.not_mem_nil e'), h.1, h.2⟩
            have : e = (e.1, e.2) := rfl
            rw [this, hk, he2]
            rfl
        | str s => rw [he2] at h; simp [canonical_ck_value] at h
        | num n => rw [he2] at h; simp [canonical_ck_value] at h
        | bool b => rw [he2] at h; simp [canonical_ck_value] at h
        | null => rw [he2] at h; simp [canonical_ck_value] at h
        | obj o => rw [he2] at h; simp [canonical_ck_value] at h
      · left
        intro e' he'
        rcases List.mem_cons.mp he' with h1 | h1
        · exact h1 ▸ hk
        · cases h1
    | false =>
      rw [if_neg (by simp [hrest])] at h
      simp only [Bool.and_eq_true, bne_iff_ne, ne_eq] at h
      rcases ih h.2 with hall | ⟨base, x, xs, hfs, hbase, hx, hxs⟩
      · left
        intro e' he'
        rcases List.mem_cons.mp he' with h1 | h1
        · exact h1 ▸ h.1
        · exact hall e' h1
      · right
        refine ⟨e :: base, x, xs, by rw [hfs]; rfl, ?_, hx, hxs⟩
        intro e' he'
        rcases List.mem_cons.mp he' with h1 | h1
        · exact h1 ▸ h.1
        · exact hbase e' h1

theorem lookup_canonical_present (ck : String) (base : List (String × Jval)) (v : Jval)
    (hbase : ∀ e ∈ base, e.1 ≠ ck) :
    lookup_field ck (base ++ [(ck, v)]) = some v := by
  rw [lookup_field_append_of_none ck base _ (lookup_field_eq_none_of_ne ck base hbase)]
  simp [lookup_field]

theorem lookup_flag_erase (ck : String) (fs : List (String × Jval)) :
    lookup_field "__leaf_extract_root" (erase_field ck fs) =
      if "__leaf_extract_root" = ck then none
      else lookup_field "__leaf_extract_root" fs := by
  induction fs with
  | nil => simp [erase_field, lookup_field]
  | cons e rest ih =>
    by_cases hflag : ("__leaf_extract_root" : String) = ck
    · rw [if_pos hflag]
      rw [if_pos hflag] at ih
      simp only [erase_field] at ih
      simp only [erase_field, List.filter_cons]
      by_cases hek : e.1 = ck
      · rw [if_neg (by simp [hek])]
        exact ih
      · rw [if_pos (by simp [hek])]
        simp only [lookup_field]
        rw [if_neg (fun hc => hek (hflag ▸ hc))]
        exact ih
    · rw [if_neg hflag]
      rw [if_neg hflag] at ih
      simp only [erase_field] at ih
      simp only [erase_field, List.filter_cons]
      by_cases hek : e.1 = ck
      · rw [if_neg (by simp [hek])]
        rw [ih]
        simp only [lookup_field]
        rw [if_neg (fun hc => hflag (hc.symm.trans hek))]
      · rw [if_pos (by simp [hek])]
        simp only [lookup_field]
        by_cases he : e.1 = "__leaf_extract_root"
        · rw [if_pos he, if_pos he]
        · rw [if_neg he, if_neg he]
          exact ih

/- ---------------------------------------------------------------------
Canonical inputs normalize to unflagged trees, and the full re-emission of
a normalized canonical value is the value itself.
--------------------------------------------------------------------- -/

theorem flagged_normalize (ck : String) (v : Jval) (h : canonical_tree ck v = true) :
    flagged (normalize_node ck v) = false := by
  cases v with
  | obj fields =>
    simp only [canonical_tree, Bool.and_eq_true] at h
    have hfa := h.1
    simp only [normalize_node, flagged, nd_payload]
    rw [lookup_flag_erase]
    by_cases hc : ("__leaf_extract_root" : String) = ck
    · simp [hc]
    · rw [if_neg hc]
      unfold flag_absent at hfa
      cases hl : lookup_field "__leaf_extract_root" fields with
      | none => simp
      | some w =>
        rw [hl] at hfa
        simp only [Bool.not_eq_true'] at hfa
        simp [hfa]
  | str s => rfl
  | num n => rfl
  | bool b => rfl
  | null => rfl
  | arr l => rfl

theorem all_unflagged_normalize (ck : String) :
    ∀ v, canonical_tree ck v = true → all_unflagged (normalize_node ck v) = true := by
  intro v0
  induction v0 using jval_size_induction with
  | _ v ihsize =>
    intro hcanon
    cases v with
    | obj fields =>
      have hflag := flagged_normalize ck (.obj fields) hcanon
      simp only [canonical_tree, Bool.and_eq_true] at hcanon
      simp only [normalize_node] at hflag ⊢
      simp only [all_unflagged, hflag, Bool.not_false, Bool.true_and]
      rcases canonical_fields_cases ck fields hcanon.2 with habs | ⟨base, x, xs, hfs, hbase, hx, hxs⟩
      · rw [normalize_fields_eq_lookup, lookup_field_eq_none_of_ne ck fields habs]
        rfl
      · rw [normalize_fields_eq_lookup]
        rw [show lookup_field ck fields = some (.arr (x :: xs)) from
          hfs ▸ lookup_canonical_present ck base _ hbase]
        have hsz : ∀ w ∈ x :: xs, jsize w < jsize (Jval.obj fields) := by
          intro w hw
          have h1 : jsize w ≤ jsize_list (x :: xs) := jsize_le_of_mem_list _ w hw
          have h2 : jsize (Jval.arr (x :: xs)) ≤ jsize_fields fields := by
            have hmem : ((ck, Jval.arr (x :: xs)) : String × Jval) ∈ fields := by
              rw [hfs]; simp
            simpa using jsize_le_of_mem_fields fields _ hmem
          simp only [jsize] at h2 ⊢
          omega
        have hcl : canonical_list ck (x :: xs) = true := by
          simp [canonical_list, hx, hxs]
        show all_unflagged_list (normalize_list ck (x :: xs)) = true
        have hgen : ∀ (l : List Jval), (∀ w ∈ l, jsize w < jsize (Jval.obj fields)) →
            canonical_list ck l = true → all_unflagged_list (normalize_list ck l) = true := by
          intro l
          induction l with
          | nil => intro _ _; rfl
          | cons y ys ihl =>
            intro hszl hcll
            simp only [canonical_list, Bool.and_eq_true] at hcll
            simp only [normalize_list, all_unflagged_list, Bool.and_eq_true]
            exact ⟨ihsize y (hszl y (by simp)) hcll.1,
              ihl (fun w hw => hszl w (by simp [hw])) hcll.2⟩
        exact hgen (x :: xs) hsz hcl
    | str s => exact rfl
    | num n => exact rfl
    | bool b => exact rfl
    | null => exact rfl
    | arr l => exact rfl

theorem rebuild_normalize (no : NormalizedOptions) :
    ∀ v, canonical_tree no.children_key v = true →
      rebuild_node no (normalize_node no.children_key v) = v := by
  intro v0
  induction v0 using jval_size_induction with
  | _ v ihsize =>
    intro hcanon
    cases v with
    | obj fields =>
      simp only [canonical_tree, Bool.and_eq_true] at hcanon
      simp only [normalize_node]
      rcases canonical_fields_cases no.children_key fields hcanon.2 with
        habs | ⟨base, x, xs, hfs, hbase, hx, hxs⟩
      · rw [normalize_fields_eq_lookup,
          lookup_field_eq_none_of_ne no.children_key fields habs]
        show rebuild_node no (.mk (erase_field no.children_key fields) [] false none) =
          Jval.obj fields
        simp only [rebuild_node, rebuild_list]
        rw [build_output_node_nil]
        simp only [get_node_payload, nd_is_primitive, nd_payload]
        rw [if_neg (by simp)]
        rw [erase_field_of_absent no.children_key fields habs]
      · rw [normalize_fields_eq_lookup]
        rw [show lookup_field no.children_key fields = some (.arr (x :: xs)) from
          hfs ▸ lookup_canonical_present no.children_key base _ hbase]
        show rebuild_node no (.mk (erase_field no.children_key fields)
          (normalize_list no.children_key (x :: xs)) false none) = Jval.obj fields
        have hsz : ∀ w ∈ x :: xs, jsize w < jsize (Jval.obj fields) := by
          intro w hw
          have h1 : jsize w ≤ jsize_list (x :: xs) := jsize_le_of_mem_list _ w hw
          have h2 : jsize (Jval.arr (x :: xs)) ≤ jsize_fields fields := by
            have hmem : ((no.children_key, Jval.arr (x :: xs)) : String × Jval) ∈ fields := by
              rw [hfs]; simp
            simpa using jsize_le_of_mem_fields fields _ hmem
          simp only [jsize] at h2 ⊢
          omega
        have hreb : ∀ (l : List Jval), (∀ w ∈ l, jsize w < jsize (Jval.obj fields)) →
            canonical_list no.children_key l = true →
            rebuild_list no (normalize_list no.children_key l) = l := by
          intro l
          induction l with
          | nil => intro _ _; rfl
          | cons y ys ihl =>
            intro hszl hcll
            simp only [canonical_list, Bool.and_eq_true] at hcll
            simp only [normalize_list, rebuild_list]
            rw [ihsize y (hszl y (by simp)) hcll.1,
              ihl (fun w hw => hszl w (by simp [hw])) hcll.2]
        simp only [rebuild_node]
        rw [hreb (x :: xs) hsz (by simp [canonical_list, hx, hxs])]
        simp only [build_output_node, nd_is_primitive, nd_payload]
        rw [if_neg (by simp)]
        rw [hfs, erase_field_append_last no.children_key base _ hbase]
        rw [set_field_of_absent no.children_key _ base
          (lookup_field_eq_none_of_ne no.children_key base hbase)]
    | str s => exact rfl
    | num n => exact rfl
    | bool b => exact rfl
    | null => exact rfl
    | arr l => exact rfl

theorem all_unflagged_normalize_list (ck : String) (l : List Jval)
    (h : canonical_list ck l = true) :
    all_unflagged_list (normalize_list ck l) = true := by
  induction l with
  | nil => rfl
  | cons x rest ih =>
    simp only [canonical_list, Bool.and_eq_true] at h
    simp only [normalize_list, all_unflagged_list, Bool.and_eq_true]
    exact ⟨all_unflagged_normalize ck x h.1, ih h.2⟩

theorem rebuild_normalize_list (no : NormalizedOptions) (l : List Jval)
    (h : canonical_list no.children_key l = true) :
    rebuild_list no (normalize_list no.children_key l) = l := by
  induction l with
  | nil => rfl
  | cons x rest ih =>
    simp only [canonical_list, Bool.and_eq_true] at h
    simp only [normalize_list, rebuild_list]
    rw [rebuild_normalize no x h.1, ih h.2]

theorem all_unflagged_normalize_forest (ck : String) (v : Jval)
    (h : canonical_input ck v = true) :
    all_unflagged_list (normalize_forest ck (some v)) = true := by
  cases v with
  | arr l => exact all_unflagged_normalize_list ck l h
  | obj fields =>
    show (all_unflagged (normalize_node ck (.obj fields)) && true) = true
    simp [all_unflagged_normalize ck (.obj fields) h]
  | str s => rfl
  | num n => rfl
  | bool b => rfl
  | null => rfl

theorem rebuild_normalize_forest (no : NormalizedOptions) (v : Jval)
    (h : canonical_input no.children_key v = true) :
    forest_to_output (input_is_array (some v))
      (rebuild_list no (normalize_forest no.children_key (some v))) = v := by
  cases v with
  | arr l =>
    show forest_to_output true (rebuild_list no (normalize_list no.children_key l)) = .arr l
    rw [rebuild_normalize_list no l h]
    rfl
  | obj fields =>
    show forest_to_output false
      (rebuild_list no [normalize_node no.children_key (.obj fields)]) = .obj fields
    simp only [rebuild_list]
    rw [rebuild_normalize no _ h]
    rfl
  | str s =>
    show forest_to_output false
      (rebuild_list no [normalize_node no.children_key (.str s)]) = .str s
    simp only [rebuild_list]
    rw [rebuild_normalize no _ h]
    rfl
  | num n =>
    show forest_to_output false
      (rebuild_list no [normalize_node no.children_key (.num n)]) = .num n
    simp only [rebuild_list]
    rw [rebuild_normalize no _ h]
    rfl
  | bool b =>
    show forest_to_output false
      (rebuild_list no [normalize_node no.children_key (.bool b)]) = .bool b
    simp only [rebuild_list]
    rw [rebuild_normalize no _ h]
    rfl
  | null =>
    show forest_to_output false
      (rebuild_list no [normalize_node no.children_key .null]) = .null
    simp only [rebuild_list]
    rw [rebuild_normalize no _ h]
    rfl

theorem extract_full_tree (v : Jval) (options : RawOptions)
    (hcanon : canonical_input (resolve_options_with_data (some v) options).children_key v = true)
    (hlevel : nd_height_list (normalize_forest
        (resolve_options_with_data (some v) options).children_key (some v)) ≤
      coerce_level options.level) :
    (extract_leaf_levels (some v) options).output_data = v := by
  have hunflag : all_unflagged_list
      (nd_children (build_root (resolve_options_with_data (some v) options) (some v))) = true :=
    all_unflagged_normalize_forest _ v hcanon
  have hall : ∀ b ∈ (post_children [] 0 (normalize_forest
        (resolve_options_with_data (some v) options).children_key (some v))).map (·.1),
      b ∈ collect_selected_nodes (build_root (resolve_options_with_data (some v) options) (some v))
        ((get_leaf_nodes (build_root (resolve_options_with_data (some v) options) (some v))).map (·.1))
        (coerce_level options.level) := by
    intro b hb
    obtain ⟨an, hbm, hfst⟩ := List.mem_map.mp hb
    have hbm' : (b, an.2) ∈ post_children [] 0 (normalize_forest
        (resolve_options_with_data (some v) options).children_key (some v)) := by
      have : an = (an.1, an.2) := rfl
      rw [this, hfst] at hbm
      exact hbm
    have hmem : (b, an.2) ∈ post_list []
        (build_root (resolve_options_with_data (some v) options) (some v)) := by
      show (b, an.2) ∈ post_list [] (Nd.mk (root_payload _)
        (normalize_forest (resolve_options_with_data (some v) options).children_key (some v))
        false none)
      simp only [post_list, List.mem_append]
      exact Or.inl hbm'
    have hb_ne : b ≠ [] := by
      obtain ⟨j, t, hjt⟩ := mem_post_children_addr _ [] 0 b an.2 hbm'
      simp [hjt]
    exact selected_all_of_big_level _ (coerce_level options.level)
      (flagged_build_root _ (some v)) hunflag hlevel b an.2 hmem hb_ne
  have hforest : extract_output_forest (some v) options =
      rebuild_list (resolve_options_with_data (some v) options)
        (normalize_forest (resolve_options_with_data (some v) options).children_key (some v)) := by
    unfold extract_output_forest
    dsimp only
    exact collect_output_list_all_selected _ _ _ [] 0 hall
  calc (extract_leaf_levels (some v) options).output_data
      = forest_to_output (input_is_array (some v)) (extract_output_forest (some v) options) := rfl
    _ = v := by
        rw [hforest]
        exact rebuild_normalize_forest _ v hcanon

/- ---------------------------------------------------------------------
Primitive nodes produced by normalization have no children, making the
primitive-promotion branch of `build_output_node` unreachable.
--------------------------------------------------------------------- -/

theorem lookup_field_mem (k : String) (fs : List (String × Jval)) (w : Jval)
    (h : lookup_field k fs = some w) : (k, w) ∈ fs := by
  induction fs with
  | nil => simp [lookup_field] at h
  | cons e rest ih =>
    simp only [lookup_field] at h
    by_cases he : e.1 = k
    · rw [if_pos he] at h
      have : e = (k, w) := by
        have : e = (e.1, e.2) := rfl
        rw [this, he, Option.some.inj h]
      simp [← this]
    · rw [if_neg he] at h
      simp [ih h]

theorem prim_childless_normalize (ck : String) :
    ∀ v, prim_childless (normalize_node ck v) = true := by
  intro v0
  induction v0 using jval_size_induction with
  | _ v ihsize =>
    cases v with
    | obj fields =>
      show prim_childless (.mk (erase_field ck fields) (normalize_fields ck fields)
        false none) = true
      simp only [prim_childless, Bool.not_false, Bool.true_or, Bool.true_and]
      rw [normalize_fields_eq_lookup]
      cases hl : lookup_field ck fields with
      | none => rfl
      | some w =>
        have hwmem : (ck, w) ∈ fields := lookup_field_mem ck fields w hl
        have hwsz : jsize w ≤ jsize_fields fields := by
          simpa using jsize_le_of_mem_fields fields (ck, w) hwmem
        cases w with
        | arr items =>
          show prim_childless_list (normalize_list ck items) = true
          have hsz : ∀ x ∈ items, jsize x < jsize (Jval.obj fields) := by
            intro x hx
            have h1 : jsize x ≤ jsize_list items := jsize_le_of_mem_list items x hx
            simp only [jsize] at hwsz ⊢
            omega
          have hgen : ∀ (l : List Jval), (∀ x ∈ l, jsize x < jsize (Jval.obj fields)) →
              prim_childless_list (normalize_list ck l) = true := by
            intro l
            induction l with
            | nil => intro _; rfl
            | cons y ys ihl =>
              intro hszl
              simp only [normalize_list, prim_childless_list, Bool.and_eq_true]
              exact ⟨ihsize y (hszl y (by simp)), ihl fun x hx => hszl x (by simp [hx])⟩
          exact hgen items hsz
        | obj o =>
          show prim_childless_list [normalize_node ck (.obj o)] = true
          have : jsize (Jval.obj o) < jsize (Jval.obj fields) := by
            simp only [jsize] at hwsz ⊢
            omega
          simp only [prim_childless_list, Bool.and_eq_true]
          exact ⟨ihsize (.obj o) this, trivial⟩
        | str s => exact rfl
        | num n => exact rfl
        | bool b => exact rfl
        | null => exact rfl
    | str s => exact rfl
    | num n => exact rfl
    | bool b => exact rfl
    | null => exact rfl
    | arr l => exact rfl

theorem prim_childless_normalize_list (ck : String) (l : List Jval) :
    prim_childless_list (normalize_list ck l) = true := by
  induction l with
  | nil => rfl
  | cons x rest ih =>
    simp only [normalize_list, prim_childless_list, Bool.and_eq_true]
    exact ⟨prim_childless_normalize ck x, ih⟩

theorem prim_childless_normalize_forest (ck : String) (input_data : Option Jval) :
    prim_childless_list (normalize_forest ck input_data) = true := by
  cases input_data with
  | none => rfl
  | some v =>
    cases v with
    | arr l => exact prim_childless_normalize_list ck l
    | obj fields =>
      show prim_childless_list [normalize_node ck (.obj fields)] = true
      simp only [prim_childless_list, Bool.and_eq_true]
      exact ⟨prim_childless_normalize ck (.obj fields), trivial⟩
    | str s => exact rfl
    | num n => exact rfl
    | bool b => exact rfl
    | null => exact rfl

theorem prim_childless_list_mem (cs : List Nd) (h : prim_childless_list cs = true) :
    ∀ c ∈ cs, prim_childless c = true := by
  induction cs with
  | nil => intro c hc; cases hc
  | cons x rest ih =>
    simp only [prim_childless_list, Bool.and_eq_true] at h
    intro c hc
    rcases List.mem_cons.mp hc with h1 | h1
    · exact h1 ▸ h.1
    · exact ih h.2 c h1

theorem build_output_eq_unpromoted_of_structured (no : NormalizedOptions) (n : Nd)
    (outs : List Jval) (h : nd_is_primitive n = false) :
    build_output_node no n outs = build_output_node_unpromoted no n outs := by
  unfold build_output_node build_output_node_unpromoted
  rw [h]
  simp

theorem collect_output_nodes_unpromoted_eq (no : NormalizedOptions) (sel : List Addr) :
    ∀ n, prim_childless n = true → ∀ addr,
      collect_output_nodes no sel addr n = collect_output_nodes_unpromoted no sel addr n := by
  intro n
  induction n using nd_strong_induction with
  | h p cs ip rv ih =>
    intro hpc addr
    simp only [prim_childless, Bool.and_eq_true] at hpc
    have hlist : ∀ (l : List Nd),
        (∀ c ∈ l, prim_childless c = true → ∀ addr,
          collect_output_nodes no sel addr c = collect_output_nodes_unpromoted no sel addr c) →
        prim_childless_list l = true → ∀ (a : Addr) (i : Nat),
        collect_output_list no sel a i l = collect_output_list_unpromoted no sel a i l := by
      intro l
      induction l with
      | nil => intro _ _ a i; rfl
      | cons c rest ihcs =>
        intro hall hpcl a i
        simp only [prim_childless_list, Bool.and_eq_true] at hpcl
        simp only [collect_output_list, collect_output_list_unpromoted]
        rw [hall c (by simp) hpcl.1 (a ++ [i]),
          ihcs (fun c' hc' => hall c' (by simp [hc'])) hpcl.2 a (i + 1)]
    have hcl := hlist cs ih hpc.2 addr 0
    simp only [collect_output_nodes, collect_output_nodes_unpromoted, hcl]
    cases hip : ip with
    | false =>
      rw [build_output_eq_unpromoted_of_structured no (.mk p cs false rv) _ rfl]
    | true =>
      have h1 : ip = false ∨ cs = [] := by simpa using hpc.1
      have hcs : cs = [] := by
        rcases h1 with h | h
        · rw [h] at hip
          exact absurd hip (by simp)
        · exact h
      subst hcs
      rfl

theorem collect_output_list_unpromoted_eq (no : NormalizedOptions) (sel : List Addr)
    (l : List Nd) (hpcl : prim_childless_list l = true) :
    ∀ (a : Addr) (i : Nat),
      collect_output_list no sel a i l = collect_output_list_unpromoted no sel a i l := by
  induction l with
  | nil => intro a i; rfl
  | cons c rest ihcs =>
    intro a i
    simp only [prim_childless_list, Bool.and_eq_true] at hpcl
    simp only [collect_output_list, collect_output_list_unpromoted]
    rw [collect_output_nodes_unpromoted_eq no sel c hpcl.1 (a ++ [i]), ihcs hpcl.2 a (i + 1)]

theorem extract_unpromoted_eq (input_data : Option Jval) (options : RawOptions) :
    extract_leaf_levels input_data options = extract_leaf_levels_unpromoted input_data options := by
  unfold extract_leaf_levels extract_leaf_levels_unpromoted extract_output_forest
  dsimp only
  rw [collect_output_list_unpromoted_eq _ _ _
    (prim_childless_normalize_forest
      (resolve_options_with_data input_data options).children_key input_data) [] 0]

theorem filter_one_node_unpromoted_eq (no : NormalizedOptions) (p : Jval → Bool) :
    ∀ n, prim_childless n = true →
      filter_one_node no p n = filter_one_node_unpromoted no p n := by
  intro n
  induction n using nd_strong_induction with
  | h pl cs ip rv ih =>
    intro hpc
    simp only [prim_childless, Bool.and_eq_true] at hpc
    have hlist : ∀ (l : List Nd),
        (∀ c ∈ l, prim_childless c = true →
          filter_one_node no p c = filter_one_node_unpromoted no p c) →
        prim_childless_list l = true →
        filter_nodes no p l = filter_nodes_unpromoted no p l := by
      intro l
      induction l with
      | nil => intro _ _; rfl
      | cons c rest ihcs =>
        intro hall hpcl
        simp only [prim_childless_list, Bool.and_eq_true] at hpcl
        simp only [filter_nodes, filter_nodes_unpromoted]
        rw [hall c (by simp) hpcl.1, ihcs (fun c' hc' => hall c' (by simp [hc'])) hpcl.2]
    have hcl := hlist cs ih hpc.2
    simp only [filter_one_node, filter_one_node_unpromoted, hcl]
    cases hip : ip with
    | false =>
      rw [build_output_eq_unpromoted_of_structured no (.mk pl cs false rv) _ rfl]
    | true =>
      have h1 : ip = false ∨ cs = [] := by simpa using hpc.1
      have hcs : cs = [] := by
        rcases h1 with h | h
        · rw [h] at hip
          exact absurd hip (by simp)
        · exact h
      subst hcs
      rfl

theorem filter_nodes_unpromoted_eq (no : NormalizedOptions) (p : Jval → Bool)
    (l : List Nd) (hpcl : prim_childless_list l = true) :
    filter_nodes no p l = filter_nodes_unpromoted no p l := by
  induction l with
  | nil => rfl
  | cons c rest ihcs =>
    simp only [prim_childless_list, Bool.and_eq_true] at hpcl
    simp only [filter_nodes, filter_nodes_unpromoted]
    rw [filter_one_node_unpromoted_eq no p c hpcl.1, ihcs hpcl.2]

theorem filter_tree_unpromoted_eq (input_data : Option Jval) (options : RawOptions)
    (predicate_fn : Option (Jval → Bool)) :
    filter_tree input_data options predicate_fn =
      filter_tree_unpromoted input_data options predicate_fn := by
  cases predicate_fn with
  | none => rfl
  | some p =>
    unfold filter_tree filter_tree_unpromoted
    dsimp only
    rw [show nd_children (build_root (resolve_options_with_data input_data options) input_data) =
      normalize_forest (resolve_options_with_data input_data options).children_key input_data
      from rfl]
    rw [filter_nodes_unpromoted_eq _ p _
      (prim_childless_normalize_forest
        (resolve_options_with_data input_data options).children_key input_data)]

/- ---------------------------------------------------------------------
The detection fuel is irrelevant above the queue size: every loop step
strictly shrinks the total queue size.
--------------------------------------------------------------------- -/

theorem jsize_pos (v : Jval) : 1 ≤ jsize v := by
  cases v <;> simp [jsize]

theorem jsize_list_append (l1 l2 : List Jval) :
    jsize_list (l1 ++ l2) = jsize_list l1 + jsize_list l2 := by
  induction l1 with
  | nil => simp [jsize_list]
  | cons v rest ih =>
    show jsize v + jsize_list (rest ++ l2) = jsize v + jsize_list rest + jsize_list l2
    rw [ih]
    omega

theorem jsize_list_filter_le (l : List Jval) (q : Jval → Bool) :
    jsize_list (l.filter q) ≤ jsize_list l := by
  induction l with
  | nil => exact Nat.le_refl 0
  | cons v rest ih =>
    simp only [List.filter_cons]
    cases q v with
    | true => simp only [if_pos rfl, jsize_list]; omega
    | false =>
      rw [if_neg (by simp)]
      simp only [jsize_list]
      omega

theorem jsize_list_enqueue_le (fields : List (String × Jval)) :
    jsize_list (enqueue_values fields) ≤ jsize_fields fields := by
  induction fields with
  | nil => exact Nat.le_refl 0
  | cons e rest ih =>
    simp only [enqueue_values, List.flatMap_cons] at ih ⊢
    rw [jsize_list_append]
    have hone : jsize_list (match e.2 with
        | .arr items => items.filter is_objlike
        | .obj fs => [.obj fs]
        | _ => []) ≤ jsize_entry e := by
      have hent : jsize_entry e = jsize e.2 := by cases e with | mk a b => rfl
      rw [hent]
      cases e.2 with
      | arr items =>
        have := jsize_list_filter_le items is_objlike
        simp only [jsize]
        omega
      | obj fs => simp only [jsize_list, jsize]; omega
      | str s => simp [jsize_list]
      | num n => simp [jsize_list]
      | bool b => simp [jsize_list]
      | null => simp [jsize_list]
    simp only [jsize_fields]
    omega

theorem detect_bfs_stable : ∀ (f1 f2 : Nat) (q : List Jval),
    jsize_list q < f1 → jsize_list q < f2 → detect_bfs f1 q = detect_bfs f2 q := by
  intro f1
  induction f1 with
  | zero => intro f2 q h1 _; exact absurd h1 (Nat.not_lt_zero _)
  | succ f1' ih =>
    intro f2 q h1 h2
    cases q with
    | nil => cases f2 <;> rfl
    | cons v rest =>
      cases f2 with
      | zero => exact absurd h2 (Nat.not_lt_zero _)
      | succ f2' =>
        simp only [jsize_list] at h1 h2
        cases v with
        | obj fields =>
          show (match candidate_hit fields DEFAULT_CHILDREN_CANDIDATES with
            | some k => some k
            | none => detect_bfs f1' (rest ++ enqueue_values fields)) =
            (match candidate_hit fields DEFAULT_CHILDREN_CANDIDATES with
            | some k => some k
            | none => detect_bfs f2' (rest ++ enqueue_values fields))
          cases candidate_hit fields DEFAULT_CHILDREN_CANDIDATES with
          | some k => rfl
          | none =>
            have hsz : jsize_list (rest ++ enqueue_values fields) <
                jsize (Jval.obj fields) + jsize_list rest := by
              rw [jsize_list_append]
              have := jsize_list_enqueue_le fields
              simp only [jsize]
              omega
            exact ih f2' _ (by omega) (by omega)
        | arr items =>
          show detect_bfs f1' (rest ++ items) = detect_bfs f2' (rest ++ items)
          have hsz : jsize_list (rest ++ items) < jsize (Jval.arr items) + jsize_list rest := by
            rw [jsize_list_append]
            simp only [jsize]
            omega
          exact ih f2' _ (by omega) (by omega)
        | str s =>
          show detect_bfs f1' rest = detect_bfs f2' rest
          have := jsize_pos (Jval.str s)
          exact ih f2' rest (by omega) (by omega)
        | num n =>
          show detect_bfs f1' rest = detect_bfs f2' rest
          have := jsize_pos (Jval.num n)
          exact ih f2' rest (by omega) (by omega)
        | bool b =>
          show detect_bfs f1' rest = detect_bfs f2' rest
          have := jsize_pos (Jval.bool b)
          exact ih f2' rest (by omega) (by omega)
        | null =>
          show detect_bfs f1' rest = detect_bfs f2' rest
          have := jsize_pos Jval.null
          exact ih f2' rest (by omega) (by omega)

/- ---------------------------------------------------------------------
Claim theorems.
--------------------------------------------------------------------- -/

/-- C1: on the input `[{value:"1", children:[{value:"1.1",
children:[{value:"1.1.1"},{value:"1.1.2"}]}]}]`, `extract_leaf_levels` at
level 1 returns the two bare leaves with `leaf_count = 2` and
`selected_count = 2`, and at level 2 it returns the subtree rooted at
`"1.1"` with `selected_count = 3`, the node `"1"` not being selected. -/
theorem claim_C1_concrete_scenario :
    (extract_leaf_levels (some sample_nested_input) { level := some 1 }).output_data =
      .arr [.obj [("value", .str "1.1.1")], .obj [("value", .str "1.1.2")]] ∧
    (extract_leaf_levels (some sample_nested_input) { level := some 1 }).meta.leaf_count = 2 ∧
    (extract_leaf_levels (some sample_nested_input) { level := some 1 }).meta.selected_count = 2 ∧
    (extract_leaf_levels (some sample_nested_input) { level := some 2 }).output_data =
      .arr [.obj [("value", .str "1.1"), ("children", .arr [
        .obj [("value", .str "1.1.1")], .obj [("value", .str "1.1.2")]])]] ∧
    (extract_leaf_levels (some sample_nested_input) { level := some 2 }).meta.selected_count = 3 :=
  ⟨rfl, rfl, rfl, rfl, rfl⟩

/-- C7 counterexample: `extract_leaf_levels(undefined, {})` does NOT behave
identically to `extract_leaf_levels([], {})`: the empty-array input yields
`output_data = []` while the `undefined` input yields `output_data = null`,
because `undefined` is not an array and the non-array shape rule applies. -/
theorem claim_C7_counterexample :
    (extract_leaf_levels none {}).output_data = .null ∧
    (extract_leaf_levels (some (.arr [])) {}).output_data = .arr [] ∧
    Jval.null ≠ .arr [] :=
  ⟨rfl, rfl, by simp⟩

/-- C7 (amended): `extract_leaf_levels([], {})` returns `{ output_data: [],
meta: { level: 1, leaf_count: 0, selected_count: 0 } }`;
`extract_leaf_levels(undefined, {})` returns the same meta but
`output_data = null`, since `undefined` is not an array. -/
theorem claim_C7_empty_input :
    extract_leaf_levels (some (.arr [])) {} =
      { output_data := .arr []
        meta := { level := 1, leaf_count := 0, selected_count := 0 } } ∧
    extract_leaf_levels none {} =
      { output_data := .null
        meta := { level := 1, leaf_count := 0, selected_count := 0 } } :=
  ⟨rfl, rfl⟩

/-- C8 counterexample: an object whose children-key field holds `null` (a
non-array value) does NOT get zero children: `normalize_forest` wraps the
value into a one-element forest, so `{a:1, children:null}` normalizes to a
node with exactly one (primitive `null`) child. -/
theorem claim_C8_counterexample :
    nd_children (normalize_node "children" (.obj [("a", .num 1), ("children", .null)])) =
      [.mk [] [] true (some .null)] ∧
    nd_children (normalize_node "children" (.obj [("a", .num 1), ("children", .null)])) ≠ [] :=
  ⟨rfl, by
    rw [show nd_children (normalize_node "children"
      (.obj [("a", .num 1), ("children", .null)])) = [.mk [] [] true (some .null)] from rfl]
    simp⟩

/-- C8 (amended): a normalized object's children are the `normalize_forest`
of its children-key field's value: empty when the field is absent
(`undefined`), elementwise when the value is an array, and a singleton
holding the normalized value when the value is present but not an array. -/
theorem claim_C8_children_normalization (ck : String) (fields : List (String × Jval)) :
    nd_children (normalize_node ck (.obj fields)) =
      normalize_forest ck (lookup_field ck fields) ∧
    (lookup_field ck fields = none → nd_children (normalize_node ck (.obj fields)) = []) ∧
    (∀ l, lookup_field ck fields = some (.arr l) →
      nd_children (normalize_node ck (.obj fields)) = l.map (normalize_node ck)) ∧
    (∀ v, lookup_field ck fields = some v → is_array_val v = false →
      nd_children (normalize_node ck (.obj fields)) = [normalize_node ck v]) := by
  refine ⟨nd_children_normalize_obj ck fields, ?_, ?_, ?_⟩
  · intro h
    rw [nd_children_normalize_obj, h]
    rfl
  · intro l h
    rw [nd_children_normalize_obj, h]
    exact normalize_list_eq_map ck l
  · intro v h hv
    rw [nd_children_normalize_obj, h]
    exact normalize_children_eq_single ck v hv

/-- C8 witness: the amended claim applied to `{a:1, children:"x"}`, whose
children-key value is the non-array string `"x"`, producing exactly one
child. -/
theorem claim_C8_witness :
    nd_children (normalize_node "children" (.obj [("a", .num 1), ("children", .str "x")])) =
      [normalize_node "children" (.str "x")] :=
  (claim_C8_children_normalization "children"
    [("a", .num 1), ("children", .str "x")]).2.2.2 (.str "x") rfl rfl

/-- C9: `map_tree` and `filter_tree` fail if and only if their function
argument is not callable (`none`), with the failure produced before any
traversal (the error value does not depend on the data or options, as the
universal quantification shows, and the mapper / predicate is never
invoked); with a callable argument they always succeed.  The remaining core
operations (`extract_leaf_levels`, `flatten_tree`, `get_leaf_paths`) are
total functions by construction — they return plain values, never errors. -/
theorem claim_C9_error_handling (input_data : Option Jval) (options : RawOptions) :
    map_tree input_data options none = .error "map_tree requires a mapper function" ∧
    filter_tree input_data options none = .error "filter_tree requires a predicate function" ∧
    (∀ f, (map_tree input_data options (some f)).isOk = true) ∧
    (∀ p, (filter_tree input_data options (some p)).isOk = true) :=
  ⟨rfl, rfl, fun _ => rfl, fun _ => rfl⟩

/-- C10: normalization only ever produces primitive nodes with an empty
children list (`prim_childless`), and consequently replacing
`build_output_node` by a variant whose primitive-promotion branch is cut
(`build_output_node_unpromoted`, which never wraps a primitive) changes
neither `extract_leaf_levels` nor `filter_tree`: the promotion branch is
unreachable from those entry points. -/
theorem claim_C10_promotion_unreachable :
    (∀ (ck : String) (v : Jval), prim_childless (normalize_node ck v) = true) ∧
    (∀ (input_data : Option Jval) (options : RawOptions),
      extract_leaf_levels input_data options =
        extract_leaf_levels_unpromoted input_data options) ∧
    (∀ (input_data : Option Jval) (options : RawOptions)
        (predicate_fn : Option (Jval → Bool)),
      filter_tree input_data options predicate_fn =
        filter_tree_unpromoted input_data options predicate_fn) :=
  ⟨prim_childless_normalize, extract_unpromoted_eq, filter_tree_unpromoted_eq⟩

/-- C2 counterexample: the input `[{a:1, children:[]}]` has maximum leaf
depth 1, yet at level 5 the output is `[{a:1}]`, not the original tree: the
empty children-key field is dropped on re-emission, so the output does not
equal the full original input even for `level ≥ max_depth`. -/
theorem claim_C2_counterexample :
    (extract_leaf_levels (some (.arr [.obj [("a", .num 1), ("children", .arr [])]]))
      { level := some 5 }).output_data = .arr [.obj [("a", .num 1)]] ∧
    Jval.arr [.obj [("a", .num 1)]] ≠ .arr [.obj [("a", .num 1), ("children", .arr [])]] :=
  ⟨rfl, by simp⟩

/-- C2 (amended): increasing `level` never decreases `meta.selected_count`;
and for every input in canonical form with respect to the resolved children
key (each object carries the children key at most once, as its last field,
with a non-empty array value, and no object carries a truthy reserved
sentinel flag) and every level at least the height of the normalized forest
(the maximum leaf depth), `output_data` equals the full original input with
no node pruned. -/
theorem claim_C2_level_monotone_and_full_tree :
    (∀ (input_data : Option Jval) (options : RawOptions) (l1 l2 : Int), l1 ≤ l2 →
      (extract_leaf_levels input_data { options with level := some l1 }).meta.selected_count ≤
        (extract_leaf_levels input_data { options with level := some l2 }).meta.selected_count) ∧
    (∀ (v : Jval) (options : RawOptions),
      canonical_input (resolve_options_with_data (some v) options).children_key v = true →
      nd_height_list (normalize_forest
          (resolve_options_with_data (some v) options).children_key (some v)) ≤
        coerce_level options.level →
      (extract_leaf_levels (some v) options).output_data = v) :=
  ⟨extract_selected_count_mono, extract_full_tree⟩

/-- C2 witness: the concrete nested input of the spec's scenario is
canonical, its forest height is 3, so level 3 reproduces it exactly; and the
selected count at level 1 is at most the one at level 2. -/
theorem claim_C2_witness :
    (extract_leaf_levels (some sample_nested_input) { level := some 1 }).meta.selected_count ≤
      (extract_leaf_levels (some sample_nested_input) { level := some 2 }).meta.selected_count ∧
    (extract_leaf_levels (some sample_nested_input) { level := some 3 }).output_data =
      sample_nested_input :=
  ⟨claim_C2_level_monotone_and_full_tree.1 (some sample_nested_input) {} 1 2 (by norm_num),
    claim_C2_level_monotone_and_full_tree.2 sample_nested_input { level := some 3 }
      (by decide) (by decide)⟩

/-- C3 counterexample: for the non-array input `{children:["a","b"]}` at
level 1 there are two leaves `"a"` and `"b"`, but `output_data` is the bare
value `"a"`: a non-array input keeps only the first element of the output
forest, so the flattened output does not list all leaves. -/
theorem claim_C3_counterexample :
    (extract_leaf_levels (some (.obj [("children", .arr [.str "a", .str "b"])]))
      { level := some 1 }).output_data = .str "a" ∧
    (get_leaf_nodes (build_root (resolve_options_with_data
        (some (.obj [("children", .arr [.str "a", .str "b"])])) { level := some 1 })
        (some (.obj [("children", .arr [.str "a", .str "b"])])))).map
      (fun an => get_node_payload an.2) = [.str "a", .str "b"] ∧
    Jval.str "a" ≠ .arr [.str "a", .str "b"] :=
  ⟨rfl, rfl, by simp⟩

/-- C3 (amended): for every top-level-array input, `extract_leaf_levels` at
level 1 returns exactly the payload / raw values of the leaves found by
`get_leaf_nodes` on the normalized tree, in the same (post-order,
left-to-right) order. -/
theorem claim_C3_level_one_leaves (l : List Jval) (options : RawOptions) :
    (extract_leaf_levels (some (.arr l)) { options with level := some 1 }).output_data =
      .arr ((get_leaf_nodes (build_root
        (resolve_options_with_data (some (.arr l)) { options with level := some 1 })
        (some (.arr l)))).map (fun an => get_node_payload an.2)) := by
  have h := extract_forest_level_one (some (.arr l)) { options with level := some 1 } rfl
  calc (extract_leaf_levels (some (.arr l)) { options with level := some 1 }).output_data
      = forest_to_output true
        (extract_output_forest (some (.arr l)) { options with level := some 1 }) := rfl
    _ = _ := by rw [h]; rfl

/-- C4 counterexample: the non-array input `{children:[[1,2]]}` yields
`output_data = [1,2]`, an array: a primitive leaf whose raw value is an
array is re-emitted bare, so a non-array input can produce an array
output. -/
theorem claim_C4_counterexample :
    input_is_array (some (.obj [("children", .arr [.arr [.num 1, .num 2]])])) = false ∧
    (extract_leaf_levels (some (.obj [("children", .arr [.arr [.num 1, .num 2]])]))
      {}).output_data = .arr [.num 1, .num 2] ∧
    is_array_val (.arr [.num 1, .num 2]) = true :=
  ⟨rfl, rfl, rfl⟩

/-- C4 (amended): an array input always yields the output forest as an
array for `extract_leaf_levels`, `map_tree` and `filter_tree`; a non-array
input yields the first element of the output forest when it is non-empty
and `null` when it is empty — but that first element may itself be an array
(e.g. when a leaf's raw value is an array), so "never an array" does not
hold. -/
theorem claim_C4_shape :
    (∀ (l : List Jval) (options : RawOptions),
      (extract_leaf_levels (some (.arr l)) options).output_data =
        .arr (extract_output_forest (some (.arr l)) options)) ∧
    (∀ (input_data : Option Jval) (options : RawOptions), input_is_array input_data = false →
      (extract_leaf_levels input_data options).output_data =
        (match extract_output_forest input_data options with
          | [] => Jval.null
          | x :: _ => x)) ∧
    (∀ (l : List Jval) (options : RawOptions) (f : Jval → Jval),
      map_tree (some (.arr l)) options (some f) =
        .ok (.arr (map_nodes (resolve_options_with_data (some (.arr l)) options) f
          (normalize_forest
            (resolve_options_with_data (some (.arr l)) options).children_key
            (some (.arr l)))))) ∧
    (∀ (input_data : Option Jval) (options : RawOptions) (f : Jval → Jval),
      input_is_array input_data = false →
      map_tree input_data options (some f) =
        .ok (match map_nodes (resolve_options_with_data input_data options) f
            (normalize_forest (resolve_options_with_data input_data options).children_key
              input_data) with
          | [] => Jval.null
          | x :: _ => x)) ∧
    (∀ (l : List Jval) (options : RawOptions) (p : Jval → Bool),
      filter_tree (some (.arr l)) options (some p) =
        .ok (.arr (filter_nodes (resolve_options_with_data (some (.arr l)) options) p
          (normalize_forest
            (resolve_options_with_data (some (.arr l)) options).children_key
            (some (.arr l)))))) ∧
    (∀ (input_data : Option Jval) (options : RawOptions) (p : Jval → Bool),
      input_is_array input_data = false →
      filter_tree input_data options (some p) =
        .ok (match filter_nodes (resolve_options_with_data input_data options) p
            (normalize_forest (resolve_options_with_data input_data options).children_key
              input_data) with
          | [] => Jval.null
          | x :: _ => x)) := by
  refine ⟨fun l options => rfl, ?_, fun l options f => rfl, ?_, fun l options p => rfl, ?_⟩
  · intro input_data options h
    calc (extract_leaf_levels input_data options).output_data
        = forest_to_output (input_is_array input_data)
          (extract_output_forest input_data options) := rfl
      _ = _ := by rw [h]; rfl
  · intro input_data options f h
    calc map_tree input_data options (some f)
        = .ok (forest_to_output (input_is_array input_data)
            (map_nodes (resolve_options_with_data input_data options) f
              (normalize_forest
                (resolve_options_with_data input_data options).children_key input_data))) := rfl
      _ = _ := by rw [h]; rfl
  · intro input_data options p h
    calc filter_tree input_data options (some p)
        = .ok (forest_to_output (input_is_array input_data)
            (filter_nodes (resolve_options_with_data input_data options) p
              (normalize_forest
                (resolve_options_with_data input_data options).children_key input_data))) := rfl
      _ = _ := by rw [h]; rfl

/-- C4 witness: the amended shape rules applied to the array input `["a"]`
and to the non-array inputs `"x"` (non-empty result) and `undefined` (empty
result, hence `null`). -/
theorem claim_C4_witness :
    (extract_leaf_levels (some (.arr [.str "a"])) {}).output_data =
      .arr (extract_output_forest (some (.arr [.str "a"])) {}) ∧
    (extract_leaf_levels (some (.str "x")) {}).output_data =
      (match extract_output_forest (some (.str "x")) {} with
        | [] => Jval.null
        | x :: _ => x) ∧
    (extract_leaf_levels none {}).output_data =
      (match extract_output_forest none {} with
        | [] => Jval.null
        | x :: _ => x) ∧
    filter_tree none {} (some (fun _ => true)) =
      .ok (match filter_nodes (resolve_options_with_data none {}) (fun _ => true)
          (normalize_forest (resolve_options_with_data none {}).children_key none) with
        | [] => Jval.null
        | x :: _ => x) :=
  ⟨claim_C4_shape.1 [.str "a"] {},
    claim_C4_shape.2.1 (some (.str "x")) {} rfl,
    claim_C4_shape.2.1 none {} rfl,
    claim_C4_shape.2.2.2.2.2 none {} (fun _ => true) rfl⟩

/-- C5 counterexample: with the predicate keeping exactly the leaf `"a"`,
the node `{value:"p", children:["a"]}` fails the predicate but has a kept
descendant; the claim says it is retained as an output node, yet
`filter_tree` splices it out and returns `["a"]`, not
`[{value:"p", children:["a"]}]`. -/
theorem claim_C5_counterexample :
    filter_tree (some (.arr [.obj [("value", .str "p"), ("children", .arr [.str "a"])]])) {}
      (some (fun v => match v with | .str "a" => true | _ => false)) =
      .ok (.arr [.str "a"]) ∧
    (Except.ok (.arr [.str "a"]) : Except String Jval) ≠
      .ok (.arr [.obj [("value", .str "p"), ("children", .arr [.str "a"])]]) :=
  ⟨rfl, by simp⟩

/-- C5 (amended): `filter_tree` behaves exactly like `collect_output_nodes`
run against the dynamically selected set of the nodes satisfying the
predicate alone: a node is retained as an output node iff the predicate
holds of it, and a node failing the predicate is transparent — removed from
the output with its kept descendants spliced up to the nearest retained
ancestor or the top level (it is not retained merely for having a kept
descendant). -/
theorem claim_C5_filter_semantics (input_data : Option Jval) (options : RawOptions)
    (p : Jval → Bool) :
    filter_tree input_data options (some p) =
      .ok (forest_to_output (input_is_array input_data)
        (collect_output_list (resolve_options_with_data input_data options)
          (predicate_selected
            (build_root (resolve_options_with_data input_data options) input_data) p)
          [] 0
          (nd_children (build_root (resolve_options_with_data input_data options)
            input_data)))) := by
  unfold filter_tree
  dsimp only
  congr 1
  congr 1
  rw [filter_nodes_eq_collect_by_pred]
  symm
  exact collect_output_list_eq_by_pred
    (resolve_options_with_data input_data options)
    (predicate_selected (build_root (resolve_options_with_data input_data options) input_data) p)
    (build_root (resolve_options_with_data input_data options) input_data)
    (fun m => p (get_node_payload m))
    (fun b m hm => by
      show b ∈ (((post_list []
          (build_root (resolve_options_with_data input_data options) input_data)).filter
        (fun an => p (get_node_payload an.2))).map (·.1)) ↔ p (get_node_payload m) = true
      exact mem_filter_map_fst_iff _ (fun n => p (get_node_payload n)) b m hm)
    (nd_children (build_root (resolve_options_with_data input_data options) input_data))
    [] 0
    (fun j c h => node_at_root_child _ j c h)

/-- C6: when no explicit `children_key` option is supplied, the resolved
children key is the breadth-first auto-detection result (the first key
among `r_children, children, nodes, items`, in that priority order at each
visited node, whose value is an array), falling back to `"children"` when
nothing is found; in particular, for an input keyed by `r_children` the
detection returns `r_children` and the emitted output uses `r_children` as
its children key. -/
theorem claim_C6_auto_detection :
    (∀ (input_data : Option Jval) (options : RawOptions), options.children_key = none →
      resolve_options_with_data input_data options =
        { normalize_options options with
            children_key := (detect_children_key input_data).getD DEFAULT_CHILDREN_KEY }) ∧
    detect_children_key (some sample_r_children_input) = some "r_children" ∧
    (extract_leaf_levels (some sample_r_children_input) { level := some 2 }).output_data =
      .arr [.obj [("value", .str "r"),
        ("r_children", .arr [.obj [("value", .str "r.1")]])]] := by
  refine ⟨?_, rfl, rfl⟩
  intro input_data options h
  unfold resolve_options_with_data
  rw [h]
  rw [if_neg (by simp)]
  cases hd : detect_children_key input_data with
  | some k => rfl
  | none =>
    show normalize_options options =
      { normalize_options options with children_key := (none : Option String).getD DEFAULT_CHILDREN_KEY }
    have : (normalize_options options).children_key = DEFAULT_CHILDREN_KEY := by
      unfold normalize_options
      rw [h]
      rfl
    rw [show ((none : Option String).getD DEFAULT_CHILDREN_KEY) = DEFAULT_CHILDREN_KEY from rfl]
    rw [← this]

/-- C6 witness: the auto-detection rule applied to the `r_children` sample
with empty options. -/
theorem claim_C6_witness :
    resolve_options_with_data (some sample_r_children_input) {} =
      { normalize_options {} with children_key :=
          (detect_children_key (some sample_r_children_input)).getD DEFAULT_CHILDREN_KEY } :=
  claim_C6_auto_detection.1 (some sample_r_children_input) {} rfl
